import Mathlib

/-!
Shallow embedding of the go2tv `devices` package (`devices/service.go` and
`devices/ssdp.go`): the SSDP listener, the response parser and the max-age extractor.

* Go `string` and `[]byte` values are lists of characters (`GoString`).
* The Go library routines the package calls (`regexp`, `strconv`, `bytes`,
  `net/textproto`, `net/http`) are modelled by the small executable functions of the
  sections `regexp`, `strconv`, `bytes`, `textproto` and `http` below. `parseService`
  takes the response reader as a parameter, so that the statements about it hold for
  every behaviour of that reader.
* Package-level state (`socket`, `deviceMap`) is passed explicitly; a panic of the
  listener goroutine is an outcome of its own.
-/

namespace devices

/-- Go `string` / `[]byte`. -/
abbrev GoString := List Char

/-! ## `regexp`: the fragment of RE2 syntax used by `rxMaxAge` -/

namespace regexp

/-- Perl class `\d` of RE2: `[0-9]`. -/
def isDigit (c : Char) : Bool := decide ('0' ≤ c) && decide (c ≤ '9')

/-- Perl class `\s` of RE2: `[\t\n\f\r ]`. -/
def isSpace (c : Char) : Bool :=
  c == '\t' || c == '\n' || c == '\x0c' || c == '\r' || c == ' '

/-- ASCII word characters `[0-9A-Za-z_]`, the ones `\b` looks at. -/
def isWordChar (c : Char) : Bool :=
  (decide ('0' ≤ c) && decide (c ≤ '9')) || (decide ('A' ≤ c) && decide (c ≤ 'Z')) ||
    (decide ('a' ≤ c) && decide (c ≤ 'z')) || c == '_'

/-- Regular expressions: literals, greedy `x*` and `x+` over a character class,
the assertion `\b`, concatenation and capture group 1. Matching is case-sensitive
(no `(?i)` flag exists in this fragment, as none is present in the source pattern). -/
inductive Regex where
  | empty
  | lit (c : Char)
  | star (cls : Char → Bool)
  | plus (cls : Char → Bool)
  | wordBoundary
  | cat (a b : Regex)
  | capture (a : Regex)

/-- Matcher position: the character before the cursor (for `\b`), the unread input
and the text of capture group 1. -/
structure Pos where
  prev : Option Char
  rest : List Char
  cap : List Char
deriving DecidableEq, Repr

/-- Assertion `\b`: exactly one of the two neighbouring characters is a word character. -/
def atWordBoundary (prev : Option Char) (rest : List Char) : Bool :=
  (prev.any isWordChar) != (rest.head?.any isWordChar)

/-- Greedy repetition of a class: every position reachable by consuming class
characters, longest first. -/
def starFrom (cls : Char → Bool) (cap : List Char) : Option Char → List Char → List Pos
  | prev, [] => [⟨prev, [], cap⟩]
  | prev, c :: cs =>
    (if cls c then starFrom cls cap (some c) cs else []) ++ [⟨prev, c :: cs, cap⟩]

/-- Backtracking matcher: all positions at which the expression can end when started
at `p`, in the preference order of leftmost-first (Perl-like) matching. -/
def run : Regex → Pos → List Pos
  | .empty, p => [p]
  | .lit c, p =>
    match p.rest with
    | d :: ds => if d = c then [⟨some d, ds, p.cap⟩] else []
    | [] => []
  | .star cls, p => starFrom cls p.cap p.prev p.rest
  | .plus cls, p =>
    match p.rest with
    | d :: ds => if cls d then starFrom cls p.cap (some d) ds else []
    | [] => []
  | .wordBoundary, p => if atWordBoundary p.prev p.rest then [p] else []
  | .cat a b, p => (run a p).flatMap (run b)
  | .capture a, p =>
    (run a p).map fun q => { q with cap := p.rest.take (p.rest.length - q.rest.length) }

/-- Concatenation of a sequence of expressions. -/
def seq : List Regex → Regex
  | [] => .empty
  | [r] => r
  | r :: rs => .cat r (seq rs)

/-- Leftmost match search: try every start offset from left to right and
take the preferred match at the first offset that has one. The result is the
submatch slice `[whole match, group 1]`. -/
def findFrom (re : Regex) : Option Char → List Char → Option (List GoString)
  | prev, [] =>
    match (run re ⟨prev, [], []⟩).head? with
    | some q => some [[], q.cap]
    | none => none
  | prev, c :: cs =>
    match (run re ⟨prev, c :: cs, []⟩).head? with
    | some q => some [(c :: cs).take ((c :: cs).length - q.rest.length), q.cap]
    | none => findFrom re (some c) cs

/-- Go `(*Regexp).FindStringSubmatch`: `none` is Go's `nil` result. -/
def FindStringSubmatch (re : Regex) (s : GoString) : Option (List GoString) :=
  findFrom re none s

end regexp

/-! ## `strconv` -/

namespace strconv

/-- Errors of `strconv.ParseInt`. -/
inductive NumError where
  | ErrSyntax
  | ErrRange
deriving DecidableEq, Repr

/-- Base-10 digits to a natural number; `none` at the first non-digit. -/
def parseDigits : List Char → Nat → Option Nat
  | [], n => some n
  | c :: cs, n => if regexp.isDigit c then parseDigits cs (10 * n + (c.toNat - 48)) else none

/-- Go `strconv.ParseInt(s, 10, bitSize)`: optional sign, at least one digit, and a
range error when the value does not fit a signed integer of `bitSize` bits. -/
def ParseInt (s : GoString) (bitSize : Nat) : Except NumError Int :=
  let signed : Bool × List Char :=
    match s with
    | '+' :: r => (false, r)
    | '-' :: r => (true, r)
    | _ => (false, s)
  if signed.2 = [] then .error .ErrSyntax
  else
    match parseDigits signed.2 0 with
    | none => .error .ErrSyntax
    | some un =>
      let cutoff : Nat := 2 ^ (bitSize - 1)
      if !signed.1 && decide (cutoff ≤ un) then .error .ErrRange
      else if signed.1 && decide (cutoff < un) then .error .ErrRange
      else .ok (if signed.1 then -(un : Int) else (un : Int))

end strconv

/-! ## `bytes` -/

namespace bytes

/-- Go `bytes.Split(s, []byte("\r\n"))`: the pieces of `s` between the non-overlapping
occurrences of CR LF, scanning from the left. The result always has at least one piece. -/
def SplitCRLF : List Char → List GoString
  | [] => [[]]
  | [c] => [[c]]
  | c :: d :: rest =>
    if c = '\r' ∧ d = '\n' then [] :: SplitCRLF rest
    else
      match SplitCRLF (d :: rest) with
      | [] => [[c]]
      | l :: ls => (c :: l) :: ls

/-- Go `bytes.Join(s, sep)`. -/
def Join (sep : GoString) : List GoString → GoString
  | [] => []
  | [l] => l
  | l :: ls => l ++ sep ++ Join sep ls

/-- Go `bytes.HasPrefix(s, prefix)`. -/
def HasPrefix (s pre : GoString) : Bool := pre.isPrefixOf s

/-- Go `bytes.HasSuffix(s, suffix)`. -/
def HasSuffix (s suf : GoString) : Bool := suf.isSuffixOf s

/-- Go `bytes.TrimLeft(s, " \t")`. -/
def TrimLeftSpaceTab (s : GoString) : GoString := s.dropWhile fun c => c == ' ' || c == '\t'

/-- Leading and trailing spaces and tabs removed. -/
def trim (s : GoString) : GoString :=
  (TrimLeftSpaceTab (TrimLeftSpaceTab s).reverse).reverse

/-- Go `bytes.Cut(s, sep)` for a one-byte separator: the text before and after the
first `sep`, or `none` when `sep` does not occur. -/
def Cut (sep : Char) : GoString → Option (GoString × GoString)
  | [] => none
  | c :: cs =>
    if c = sep then some ([], cs)
    else
      match Cut sep cs with
      | some (k, v) => some (c :: k, v)
      | none => none

end bytes

/-! ## `net/textproto` and `net/http`: header sets and the response reader -/

/-- Go `http.Header`, a `map[string][]string`: each key occurs once and carries the list
of its values in arrival order. -/
abbrev Header := List (GoString × List GoString)

namespace textproto

/-- Token bytes of RFC 7230, the bytes allowed in a header field name. -/
def validHeaderFieldByte (c : Char) : Bool :=
  regexp.isWordChar c ||
    c ∈ ['!', '#', '$', '%', '&', '\x27', '*', '+', '-', '.', '^', '\x60', '|', '~']

/-- Bytes allowed in a header field value: everything but the control characters
other than TAB. -/
def validHeaderValueByte (c : Char) : Bool :=
  c == '\t' || (decide (' ' ≤ c) && c != '\x7f')

/-- Canonical casing: upper case at the start and after each `-`, lower case elsewhere. -/
def canonCase : Bool → List Char → List Char
  | _, [] => []
  | upper, c :: cs =>
    let c1 : Char :=
      if upper && decide ('a' ≤ c) && decide (c ≤ 'z') then c.toUpper
      else if !upper && decide ('A' ≤ c) && decide (c ≤ 'Z') then c.toLower
      else c
    c1 :: canonCase (c1 == '-') cs

/-- Go `textproto.CanonicalMIMEHeaderKey`: keys with a byte that is not a token byte
are returned unchanged. -/
def CanonicalMIMEHeaderKey (s : GoString) : GoString :=
  if s.all validHeaderFieldByte then canonCase true s else s

/-- The reader-side `canonicalMIMEHeaderKey`: `none` for a key with an invalid byte
other than a space; a key with a space is accepted without canonicalisation. -/
def canonicalKeyOfLine (k : GoString) : Option GoString :=
  if k.any fun c => !validHeaderFieldByte c && c != ' ' then none
  else if k.any fun c => c == ' ' then some k
  else some (canonCase true k)

/-- Go `MIMEHeader.Get`: the first value stored under the canonical form of `key`,
the empty string when the key is absent. -/
def Get (h : Header) (key : GoString) : GoString :=
  match h.lookup (CanonicalMIMEHeaderKey key) with
  | some (v :: _) => v
  | _ => []

/-- Appending a value under a key, `m[key] = append(m[key], value)`. -/
def add (key value : GoString) : Header → Header
  | [] => [(key, [value])]
  | (k, vs) :: h => if k = key then (k, vs ++ [value]) :: h else (k, vs) :: add key value h

/-- Errors of the response reader. -/
inductive ReadError where
  | unexpectedEOF
  | malformedResponse
  | malformedStatusCode
  | malformedVersion
  | malformedInitialLine
  | malformedHeaderLine
deriving DecidableEq, Repr

/-- Lines of a byte stream as `ReadLine` delivers them: each line ends at `\n` and
loses its `\n` or `\r\n`; bytes after the last `\n` form a last line when there are any.
`acc` holds the current line reversed. -/
def readLines : List Char → List Char → List GoString
  | [], acc => if acc = [] then [] else [acc.reverse]
  | c :: cs, acc =>
    if c = '\n' then
      (match acc with
        | '\r' :: a => a.reverse
        | a => a.reverse) :: readLines cs []
    else readLines cs (c :: acc)

/-- One logical header line `key: value` entered into the header set. -/
def addLine (kv : GoString) (m : Header) : Except ReadError Header :=
  match bytes.Cut ':' kv with
  | none => .error .malformedHeaderLine
  | some (k, v) =>
    match canonicalKeyOfLine k with
    | none => .error .malformedHeaderLine
    | some key =>
      if v.any fun c => !validHeaderValueByte c then .error .malformedHeaderLine
      else if key = [] then .ok m
      else .ok (add key (bytes.TrimLeftSpaceTab v) m)

/-- Loop of `ReadMIMEHeader` over the remaining lines. `cur` is the logical line
being assembled: a following line that starts with a space or a tab continues it,
joined by one space. The block ends at the first empty line; running out of lines
before that is an unexpected end of input. -/
def readHeaderLines : List GoString → Option GoString → Header → Except ReadError Header
  | [], _, _ => .error .unexpectedEOF
  | l :: ls, cur, m =>
    match cur with
    | none =>
      if l = [] then .ok m
      else if ':' ∉ l then .error .malformedHeaderLine
      else readHeaderLines ls (some (bytes.trim l)) m
    | some kv =>
      if l.head? = some ' ' ∨ l.head? = some '\t' then
        readHeaderLines ls (some (kv ++ ' ' :: bytes.trim l)) m
      else
        match addLine kv m with
        | .error e => .error e
        | .ok m1 =>
          if l = [] then .ok m1
          else if ':' ∉ l then .error .malformedHeaderLine
          else readHeaderLines ls (some (bytes.trim l)) m1

/-- Go `(*Reader).ReadMIMEHeader` on the lines that follow the status line. -/
def ReadMIMEHeader (ls : List GoString) : Except ReadError Header :=
  match ls with
  | l :: _ =>
    if l.head? = some ' ' ∨ l.head? = some '\t' then .error .malformedInitialLine
    else readHeaderLines ls none []
  | [] => .error .unexpectedEOF

end textproto

namespace http

open textproto

/-- Go `http.ParseHTTPVersion`: exactly `HTTP/X.Y` with one-digit `X` and `Y`. -/
def validHTTPVersion (vers : GoString) : Bool :=
  match vers with
  | ['H', 'T', 'T', 'P', '/', x, '.', y] => regexp.isDigit x && regexp.isDigit y
  | _ => false

/-- Status line of a response: `proto SP status-code [SP reason]` with a three-digit
status code and a valid protocol version. -/
def checkStatusLine (line : GoString) : Except ReadError Unit :=
  match bytes.Cut ' ' line with
  | none => .error .malformedResponse
  | some (proto, status) =>
    let status1 : GoString := status.dropWhile fun c => c == ' '
    let statusCode : GoString := status1.takeWhile fun c => c != ' '
    if statusCode.length ≠ 3 then .error .malformedStatusCode
    else
      match strconv.ParseInt statusCode 64 with
      | .error _ => .error .malformedStatusCode
      | .ok n =>
        if n < 0 then .error .malformedStatusCode
        else if validHTTPVersion proto then .ok ()
        else .error .malformedVersion

/-- Go `fixPragmaCacheControl`: `Pragma: no-cache` implies `Cache-Control: no-cache`
when no `Cache-Control` is present. -/
def fixPragmaCacheControl (h : Header) : Header :=
  match h.lookup "Pragma".toList with
  | some (v :: _) =>
    if v = "no-cache".toList ∧ (h.lookup "Cache-Control".toList).isNone then
      h ++ [("Cache-Control".toList, ["no-cache".toList])]
    else h
  | _ => h

/-- Go `http.ReadResponse(bufio.NewReader(bytes.NewReader(data)), nil)`, reduced to what
`parseService` uses of it: failure, or the header set of the response. The status line
is checked, then the header block is read up to its blank line. The body framing and
connection handling done afterwards by the library look only at the `Transfer-Encoding`,
`Content-Length`, `Trailer` and `Connection` fields and are not part of this model. -/
def ReadResponse (data : GoString) : Except ReadError Header :=
  match readLines data [] with
  | [] => .error .unexpectedEOF
  | line :: ls =>
    match checkStatusLine line with
    | .error e => .error e
    | .ok _ =>
      match ReadMIMEHeader ls with
      | .error e => .error e
      | .ok h => .ok (fixPragmaCacheControl h)

end http

/-! ## `service.go` -/

/-- Go `Service`, a discovered service. `maxAge` is the `*int` memo cell: `none` is the
nil pointer. The Go field `Type` is spelled `Typ` here. -/
structure Service where
  From : GoString
  Typ : GoString
  USN : GoString
  Location : GoString
  Server : GoString
  rawHeader : Header
  maxAge : Option Int
deriving DecidableEq, Repr

/-- Go `rxMaxAge = regexp.MustCompile("\bmax-age\s*=\s*(\d+)\b")`. -/
def rxMaxAge : regexp.Regex :=
  regexp.seq [.wordBoundary, .lit 'm', .lit 'a', .lit 'x', .lit '-', .lit 'a', .lit 'g',
    .lit 'e', .star regexp.isSpace, .lit '=', .star regexp.isSpace,
    .capture (.plus regexp.isDigit), .wordBoundary]

/-- Go `extractMaxAge(s, value)`. -/
def extractMaxAge (s : GoString) (value : Int) : Int :=
  match regexp.FindStringSubmatch rxMaxAge s with
  | some m =>
    match strconv.ParseInt (m.getD 1 []) 32 with
    | .ok i64 => i64
    | .error _ => value
  | none => value

/-- Go `(*Service).MaxAge`: the result and the record after the call (the memo cell is
filled by the first call). -/
def Service.MaxAge (s : Service) : Int × Service :=
  match s.maxAge with
  | none =>
    let v := extractMaxAge (textproto.Get s.rawHeader "CACHE-CONTROL".toList) (-1)
    (v, { s with maxAge := some v })
  | some v => (v, s)

/-- Go `(*Service).Header`. -/
def Service.Header (s : Service) : devices.Header := s.rawHeader

/-- A caller mutating the map handed out by `Header()`: the record afterwards holds
the header set `h`. -/
def Service.setHeader (s : Service) (h : devices.Header) : Service := { s with rawHeader := h }

/-! ## `ssdp.go` -/

/-- A `net.Addr`, known through its `String()` rendering. -/
structure Addr where
  String : GoString
deriving DecidableEq, Repr

/-- Errors returned by `parseService`. -/
inductive ParseError (ε : Type) where
  | errWithoutHTTPPrefix
  | readResponse (e : ε)
deriving DecidableEq, Repr

/-- Go `endOfHeader`. -/
def endOfHeader : GoString := ['\r', '\n', '\r', '\n']

/-- The line separator CR LF. -/
def crlf : GoString := ['\r', '\n']

/-- The line that `parseService` writes over the first line. -/
def statusLine : GoString := "HTTP/1.1 200 OK".toList

/-- The byte sequence `parseService` hands to `http.ReadResponse` (before the prefix
check): split at CR LF, first line overwritten, joined again. -/
def rejoin (data : GoString) : GoString :=
  let lines := bytes.SplitCRLF data
  let lines := if lines.length > 0 then lines.set 0 statusLine else lines
  bytes.Join crlf lines

/-- The terminator shim of `parseService`: `endOfHeader` is appended unless already there. -/
def complement (data : GoString) : GoString :=
  if !bytes.HasSuffix data endOfHeader then bytes.Join [] [data, endOfHeader] else data

/-- Go `parseService(addr, data)`, with the library call `http.ReadResponse` as the
parameter `rr` (`http.ReadResponse` above is the instance used for concrete datagrams). -/
def parseService {ε : Type} (rr : GoString → Except ε Header) (addr : Addr) (data : GoString) :
    Except (ParseError ε) Service :=
  let data := rejoin data
  if !bytes.HasPrefix data "HTTP".toList then .error .errWithoutHTTPPrefix
  else
    let data := complement data
    match rr data with
    | .error err => .error (.readResponse err)
    | .ok resp =>
      .ok { From := addr.String
            Typ := textproto.Get resp "NT".toList
            USN := textproto.Get resp "USN".toList
            Location := textproto.Get resp "LOCATION".toList
            Server := textproto.Get resp "SERVER".toList
            rawHeader := resp
            maxAge := none }

/-- Go `deviceMap`, a `map[string]Service`. -/
abbrev DeviceMap := AList fun _ : GoString => Service

/-- Result of running a piece of the listener goroutine: it goes on with a new
registry, or the goroutine panics (which ends the process). -/
inductive Outcome where
  | running (deviceMap : DeviceMap)
  | panicked

/-- One iteration of the receive loop in `init`, from the point where a datagram
`data = receiveData[:n]` from `addr` has been read. `srv` is the pointer returned by
`parseService`, nil (`none`) exactly when `err` is not nil. The `if err != nil` statement
only logs and falls through, so the loop goes on to read `srv.Type`, which panics on the
nil pointer; otherwise a record with a non-empty `Type` is stored under its `USN`. -/
def listenerStep {ε : Type} (rr : GoString → Except ε Header) (deviceMap : DeviceMap)
    (addr : Addr) (data : GoString) : Outcome :=
  let srv : Option Service :=
    match parseService rr addr data with
    | .ok srv => some srv
    | .error _ => none
  match srv with
  | none => .panicked
  | some srv =>
    if srv.Typ ≠ [] then .running (deviceMap.insert srv.USN srv)
    else .running deviceMap

/-- The listener run over a sequence of datagrams, stopping at a panic. -/
def listenerRun {ε : Type} (rr : GoString → Except ε Header) :
    DeviceMap → List (Addr × GoString) → Outcome
  | deviceMap, [] => .running deviceMap
  | deviceMap, (addr, data) :: rest =>
    match listenerStep rr deviceMap addr data with
    | .panicked => .panicked
    | .running deviceMap1 => listenerRun rr deviceMap1 rest

/-- Go `groupAddr`. -/
def groupAddr : GoString := "239.255.255.250".toList

/-- Go `port`. -/
def port : Nat := 1900

/-- Decimal rendering of an `int` (`%d`). -/
def itoa (n : Int) : GoString :=
  if n < 0 then '-' :: Nat.toDigits 10 n.natAbs else Nat.toDigits 10 n.natAbs

/-- Go `buildSearch(searchType, waitSec)`. -/
def buildSearch (searchType : GoString) (waitSec : Int) : GoString :=
  "M-SEARCH * HTTP/1.1\r\n".toList ++
  ("HOST: ".toList ++ groupAddr ++ ':' :: Nat.toDigits 10 port ++ crlf) ++
  ("MAN: \"ssdp:discover\"".toList ++ crlf) ++
  ("MX: ".toList ++ itoa waitSec ++ crlf) ++
  ("ST: ".toList ++ searchType ++ crlf) ++
  crlf

/-- Error of a socket write. -/
inductive NetError where
  | writeFailed
deriving DecidableEq, Repr

/-- The `*net.UDPConn`, known through the outcome of `conn.WriteTo(data, sendToAddr)`
for the multicast group address: `none` is a nil error. -/
structure UDPConn where
  WriteTo : GoString → Option NetError

/-- Go `sendMulticastMessage(conn, data)`. -/
def sendMulticastMessage (conn : UDPConn) (data : GoString) : Option NetError :=
  match conn.WriteTo data with
  | some err => some err
  | none => none

/-- Package-level variables `socket` and `deviceMap`. -/
structure Globals where
  socket : Option UDPConn
  deviceMap : DeviceMap

/-- Go `AnotherSearch(searchType, waitSec)`: the returned slice and the package state
after the call. The slice lists the map values in the iteration order of the map. -/
def AnotherSearch (g : Globals) (searchType : GoString) (waitSec : Int) :
    List Service × Globals :=
  match g.socket with
  | none => ([], g)
  | some socket =>
    let msg := buildSearch searchType waitSec
    match sendMulticastMessage socket msg with
    | some _ => ([], g)
    | none => (g.deviceMap.entries.map fun e => e.2, g)

/-! ## Definitions used in the statements: specification of the token, sample data -/

/-- The input from its first CR LF on (empty when there is none). -/
def fromFirstCRLF : List Char → List Char
  | [] => []
  | [_] => []
  | c :: d :: rest =>
    if c = '\r' ∧ d = '\n' then c :: d :: rest else fromFirstCRLF (d :: rest)

/-- Sender of the sample datagrams, `10.0.0.5:1900`. -/
def sampleAddr : Addr := ⟨"10.0.0.5:1900".toList⟩

/-- A NOTIFY advertisement. -/
def notifyDatagram : GoString :=
  ("NOTIFY * HTTP/1.1\r\nNT: urn:test:service:1\r\nUSN: uuid:abc123::urn:test:service:1\r\n" ++
    "LOCATION: http://10.0.0.5:80/desc.xml\r\nSERVER: test/1.0\r\n" ++
    "CACHE-CONTROL: max-age=1800\r\n\r\n").toList

/-- The NOTIFY advertisement without its final blank line. -/
def notifyUnterminated : GoString :=
  ("NOTIFY * HTTP/1.1\r\nNT: urn:test:service:1\r\nUSN: uuid:abc123::urn:test:service:1\r\n" ++
    "LOCATION: http://10.0.0.5:80/desc.xml\r\nSERVER: test/1.0\r\n" ++
    "CACHE-CONTROL: max-age=1800").toList

/-- Header set of the NOTIFY advertisement, keys in canonical form. -/
def notifyHeader : Header :=
  [("Nt".toList, ["urn:test:service:1".toList]),
   ("Usn".toList, ["uuid:abc123::urn:test:service:1".toList]),
   ("Location".toList, ["http://10.0.0.5:80/desc.xml".toList]),
   ("Server".toList, ["test/1.0".toList]),
   ("Cache-Control".toList, ["max-age=1800".toList])]

/-- Record expected for the NOTIFY advertisement. -/
def notifyRecord : Service :=
  { From := "10.0.0.5:1900".toList
    Typ := "urn:test:service:1".toList
    USN := "uuid:abc123::urn:test:service:1".toList
    Location := "http://10.0.0.5:80/desc.xml".toList
    Server := "test/1.0".toList
    rawHeader := notifyHeader
    maxAge := none }

/-- A reply to a discovery query: it carries `ST` and no `NT`. -/
def searchReply : GoString :=
  ("HTTP/1.1 200 OK\r\nCACHE-CONTROL: max-age=1800\r\nST: upnp:rootdevice\r\n" ++
    "USN: uuid:abc123::upnp:rootdevice\r\nLOCATION: http://10.0.0.5:80/desc.xml\r\n\r\n").toList

/-- A datagram whose header block is malformed. -/
def malformedDatagram : GoString := "NOTIFY * HTTP/1.1\r\nthis is not a header\r\n\r\n".toList

/-- Space or tab, the bytes trimmed around header lines and values. -/
def isBlank (c : Char) : Bool := c == ' ' || c == '\t'

/-- The header line `key: value`. -/
def fieldLine (kv : GoString × GoString) : GoString := kv.1 ++ ':' :: ' ' :: kv.2

/-- A header block in wire form: one line `key: value` CR LF per field. -/
def renderHeaders : List (GoString × GoString) → GoString
  | [] => []
  | kv :: hs => fieldLine kv ++ crlf ++ renderHeaders hs

/-- Canonical names of the fields that the library uses for body framing and connection
handling after the header block is read. -/
def framingFields : List GoString :=
  ["Transfer-Encoding".toList, "Content-Length".toList, "Trailer".toList, "Connection".toList]

/-- A field that reads back as written: the name is a non-empty token and not a framing
field, the value is non-empty, made of valid value bytes, and neither starts nor ends
with a space or tab. -/
def wellFormedField (kv : GoString × GoString) : Bool :=
  !kv.1.isEmpty && kv.1.all textproto.validHeaderFieldByte &&
  !kv.2.isEmpty && kv.2.all textproto.validHeaderValueByte &&
  !(kv.2.head?.any isBlank) && !(kv.2.getLast?.any isBlank) &&
  !(framingFields.contains (textproto.CanonicalMIMEHeaderKey kv.1))

/-- The value of the header `name` in a list of fields: the value of the first field
whose name equals `name` up to letter case (compared in canonical form), and the empty
string when there is none. -/
def fieldValue (name : GoString) (hs : List (GoString × GoString)) : GoString :=
  match hs.find? fun kv =>
      textproto.CanonicalMIMEHeaderKey kv.1 == textproto.CanonicalMIMEHeaderKey name with
  | some kv => kv.2
  | none => []

/-- The header set of a list of fields: each value filed under the canonical form of
its name, in order. -/
def headerSetOf (hs : List (GoString × GoString)) : Header :=
  hs.foldl (fun m kv => textproto.add (textproto.CanonicalMIMEHeaderKey kv.1) kv.2 m) []

/-- Fields of the NOTIFY advertisement. -/
def notifyFields : List (GoString × GoString) :=
  [("NT".toList, "urn:test:service:1".toList),
   ("USN".toList, "uuid:abc123::urn:test:service:1".toList),
   ("LOCATION".toList, "http://10.0.0.5:80/desc.xml".toList),
   ("SERVER".toList, "test/1.0".toList),
   ("CACHE-CONTROL".toList, "max-age=1800".toList)]

/-- An older record stored under the USN of the NOTIFY advertisement. -/
def staleRecord : Service :=
  { From := "10.0.0.9:1900".toList
    Typ := "urn:test:service:0".toList
    USN := "uuid:abc123::urn:test:service:1".toList
    Location := "http://10.0.0.9:80/old.xml".toList
    Server := "old/0.9".toList
    rawHeader := [("Nt".toList, ["urn:test:service:0".toList])]
    maxAge := none }

/-- A registry that holds the older record and one unrelated record. -/
def staleMap : DeviceMap :=
  ((∅ : DeviceMap).insert "uuid:other".toList staleRecord).insert
    "uuid:abc123::urn:test:service:1".toList staleRecord

/-- A registry that holds the record of the NOTIFY advertisement. -/
def notifyMap : DeviceMap :=
  (∅ : DeviceMap).insert "uuid:abc123::urn:test:service:1".toList notifyRecord

/-- The search type `ssdp:all`. -/
def ssdpAll : GoString := "ssdp:all".toList

/-- A socket on which every write fails. -/
def failingSocket : UDPConn := ⟨fun _ => some .writeFailed⟩

/-- A socket on which every write succeeds. -/
def workingSocket : UDPConn := ⟨fun _ => none⟩

/-- Results of the calls `MaxAge()` made one after the other on a record, the caller
replacing the header set by the next element of `hs` before each call. -/
def Service.laterCalls (s : Service) : List devices.Header → List Int
  | [] => []
  | h :: hs => (s.setHeader h).MaxAge.1 :: Service.laterCalls (s.setHeader h).MaxAge.2 hs

/-- Decimal value of a string of digits. -/
def decimalValue (ds : List Char) : Nat := ds.foldl (fun n c => 10 * n + (c.toNat - 48)) 0

/-- A `max-age=<digits>` token starts at the cursor: the lower-case keyword `max-age`,
optional white space, `=`, optional white space and the non-empty digit string `ds`;
the character before the token (`prev`) and the character after the digits are not
word characters `[0-9A-Za-z_]`. -/
def MaxAgeTokenAt (prev : Option Char) (rest ds : GoString) : Prop :=
  ∃ ws1 ws2 post : List Char,
    rest = "max-age".toList ++ (ws1 ++ '=' :: (ws2 ++ (ds ++ post))) ∧
    (∀ c ∈ ws1, regexp.isSpace c = true) ∧
    (∀ c ∈ ws2, regexp.isSpace c = true) ∧
    ds ≠ [] ∧
    (∀ c ∈ ds, regexp.isDigit c = true) ∧
    prev.any regexp.isWordChar = false ∧
    post.head?.any regexp.isWordChar = false

/-- The string `s` has a `max-age` token with digits `ds` right after its prefix `pre`. -/
def HasMaxAgeToken (s pre ds : GoString) : Prop :=
  ∃ rest, s = pre ++ rest ∧ MaxAgeTokenAt pre.getLast? rest ds

/-- The leftmost `max-age` token of `s` has the digits `ds`. -/
def FirstMaxAgeToken (s ds : GoString) : Prop :=
  ∃ pre, HasMaxAgeToken s pre ds ∧
    ∀ pre1 ds1, HasMaxAgeToken s pre1 ds1 → pre.length ≤ pre1.length

namespace regexp

/-- The part of the pattern after the keyword: `\s*=\s*(\d+)\b`. -/
def rxTail : Regex :=
  .cat (.star isSpace) (.cat (.lit '=') (.cat (.star isSpace)
    (.cat (.capture (.plus isDigit)) .wordBoundary)))

/-- The character before the cursor after reading `pre`, when `prev` was before it. -/
def lastOr (prev : Option Char) : List Char → Option Char
  | [] => prev
  | c :: cs => lastOr (some c) cs

end regexp

/-- A header value with two tokens; the first one has white space around `=`. -/
def twoTokens : GoString := "public, max-age \t= 1800, max-age=60".toList

/-- A header value without a token. -/
def noToken : GoString := "no-cache".toList

/-- A header value whose number does not fit 32 bits. -/
def hugeToken : GoString := "max-age=2147483648".toList

/-! ## Facts about splitting and joining at CR LF -/

theorem SplitCRLF_ne_nil (data : List Char) : bytes.SplitCRLF data ≠ [] := by
  induction data using bytes.SplitCRLF.induct with
  | case1 => simp [bytes.SplitCRLF]
  | case2 c => simp [bytes.SplitCRLF]
  | case3 c d rest h ih => simp [bytes.SplitCRLF, h]
  | case4 c d rest h hs ih => exact absurd hs ih
  | case5 c d rest h l ls hs ih => simp [bytes.SplitCRLF, h, hs]

theorem Join_cons_cons (sep x l : GoString) (ls : List GoString) :
    bytes.Join sep (x :: l :: ls) = x ++ sep ++ bytes.Join sep (l :: ls) := by
  simp [bytes.Join]

theorem Join_head_cons (sep : GoString) (c : Char) (l : GoString) (ls : List GoString) :
    bytes.Join sep ((c :: l) :: ls) = c :: bytes.Join sep (l :: ls) := by
  cases ls <;> simp [bytes.Join]

/-- Joining the pieces of a split gives the input back. -/
theorem Join_SplitCRLF (data : List Char) : bytes.Join crlf (bytes.SplitCRLF data) = data := by
  induction data using bytes.SplitCRLF.induct with
  | case1 => simp [bytes.SplitCRLF, bytes.Join]
  | case2 c => simp [bytes.SplitCRLF, bytes.Join]
  | case3 c d rest h ih =>
    obtain ⟨l, ls, hl⟩ := List.exists_cons_of_ne_nil (SplitCRLF_ne_nil rest)
    rw [hl] at ih
    have hsplit : bytes.SplitCRLF (c :: d :: rest) = [] :: l :: ls := by
      simp [bytes.SplitCRLF, h, hl]
    rw [hsplit, Join_cons_cons, ih]
    simp [crlf, h]
  | case4 c d rest h hs ih => exact absurd hs (SplitCRLF_ne_nil _)
  | case5 c d rest h l ls hs ih =>
    rw [hs] at ih
    have : bytes.SplitCRLF (c :: d :: rest) = (c :: l) :: ls := by
      simp only [bytes.SplitCRLF, h, hs, if_false]
    rw [this, Join_head_cons, ih]

/-- Overwriting the first piece of a split and joining again replaces everything
before the first CR LF. -/
theorem Join_set_SplitCRLF (data : List Char) (x : GoString) :
    ∃ l ls, bytes.SplitCRLF data = l :: ls ∧
      bytes.Join crlf (x :: ls) = x ++ fromFirstCRLF data := by
  induction data using bytes.SplitCRLF.induct with
  | case1 => exact ⟨[], [], rfl, by simp [bytes.Join, fromFirstCRLF]⟩
  | case2 c => exact ⟨[c], [], rfl, by simp [bytes.Join, fromFirstCRLF]⟩
  | case3 c d rest h ih =>
    obtain ⟨l, ls, hl⟩ := List.exists_cons_of_ne_nil (SplitCRLF_ne_nil rest)
    refine ⟨[], l :: ls, by simp [bytes.SplitCRLF, h, hl], ?_⟩
    have hj := Join_SplitCRLF rest
    rw [hl] at hj
    rw [Join_cons_cons, hj]
    simp [fromFirstCRLF, h, crlf]
  | case4 c d rest h hs ih => exact absurd hs (SplitCRLF_ne_nil _)
  | case5 c d rest h l ls hs ih =>
    obtain ⟨l1, ls1, h1, h2⟩ := ih
    rw [hs] at h1
    obtain ⟨rfl, rfl⟩ : l = l1 ∧ ls = ls1 := by simpa using h1
    refine ⟨c :: l, ls, by simp only [bytes.SplitCRLF, h, hs, if_false], ?_⟩
    rw [h2]
    simp [fromFirstCRLF, h]

/-- What `parseService` feeds to the prefix check: the status line followed by the
payload from its first CR LF on. -/
theorem rejoin_eq (data : GoString) : rejoin data = statusLine ++ fromFirstCRLF data := by
  obtain ⟨l, ls, h1, h2⟩ := Join_set_SplitCRLF data statusLine
  simp [rejoin, h1, h2]

theorem fromFirstCRLF_shape (data : List Char) :
    fromFirstCRLF data = [] ∨ ∃ r, fromFirstCRLF data = '\r' :: '\n' :: r := by
  induction data using fromFirstCRLF.induct with
  | case1 => simp [fromFirstCRLF]
  | case2 c => simp [fromFirstCRLF]
  | case3 c d rest h =>
    right
    exact ⟨rest, by simp [fromFirstCRLF, h]⟩
  | case4 c d rest h ih => simpa [fromFirstCRLF, h] using ih

theorem fromFirstCRLF_suffix (data : List Char) : fromFirstCRLF data <:+ data := by
  induction data using fromFirstCRLF.induct with
  | case1 => simp [fromFirstCRLF]
  | case2 c => simp [fromFirstCRLF]
  | case3 c d rest h => simp [fromFirstCRLF, h]
  | case4 c d rest h ih =>
    simp only [fromFirstCRLF, h, if_false]
    exact ih.trans (List.suffix_cons _ _)

theorem fromFirstCRLF_append_endOfHeader (data : List Char) :
    fromFirstCRLF (data ++ endOfHeader) = fromFirstCRLF data ++ endOfHeader := by
  induction data using fromFirstCRLF.induct with
  | case1 => simp [fromFirstCRLF, endOfHeader]
  | case2 c =>
    by_cases hc : c = '\r' <;> simp [fromFirstCRLF, endOfHeader, hc]
  | case3 c d rest h => simp [fromFirstCRLF, h]
  | case4 c d rest h ih =>
    have : (c :: d :: rest) ++ endOfHeader = c :: d :: (rest ++ endOfHeader) := rfl
    rw [this]
    simp only [fromFirstCRLF, h, if_false]
    exact ih

theorem statusLine_eq : statusLine =
    ['H', 'T', 'T', 'P', '/', '1', '.', '1', ' ', '2', '0', '0', ' ', 'O', 'K'] := by decide

theorem HasPrefix_rejoin (data : GoString) : bytes.HasPrefix (rejoin data) "HTTP".toList = true := by
  rw [rejoin_eq, statusLine_eq]
  have : "HTTP".toList = ['H', 'T', 'T', 'P'] := by decide
  rw [this]
  simp [bytes.HasPrefix, List.isPrefixOf]

/-- The rejoined payload ends with the terminator only if the payload itself does. -/
theorem HasSuffix_rejoin (data : GoString) (h : bytes.HasSuffix data endOfHeader = false) :
    bytes.HasSuffix (rejoin data) endOfHeader = false := by
  rw [rejoin_eq]
  by_contra hc
  have hc : endOfHeader <:+ statusLine ++ fromFirstCRLF data := by
    simpa [bytes.HasSuffix] using hc
  have hn : ¬ endOfHeader <:+ data := by
    intro hs
    rw [← List.isSuffixOf_iff_suffix] at hs
    simp [bytes.HasSuffix, hs] at h
  by_cases hlen : endOfHeader.length ≤ (fromFirstCRLF data).length
  · exact hn ((List.suffix_of_suffix_length_le hc (List.suffix_append _ _) hlen).trans
      (fromFirstCRLF_suffix data))
  · rcases fromFirstCRLF_shape data with h0 | ⟨r, hr⟩
    · rw [h0] at hc
      revert hc
      rw [List.suffix_iff_eq_drop]
      decide
    · rw [hr] at hc hlen
      rcases r with _ | ⟨x, _ | ⟨y, r⟩⟩
      · revert hc
        rw [List.suffix_iff_eq_drop]
        decide
      · revert hc
        rw [List.suffix_iff_eq_drop]
        simp [statusLine_eq, endOfHeader]
      · simp [endOfHeader] at hlen

theorem rejoin_append_endOfHeader (data : GoString) :
    rejoin (data ++ endOfHeader) = rejoin data ++ endOfHeader := by
  simp [rejoin_eq, fromFirstCRLF_append_endOfHeader]

theorem complement_of_not_suffix (data : GoString) (h : bytes.HasSuffix data endOfHeader = false) :
    complement data = data ++ endOfHeader := by
  simp [complement, h, bytes.Join]

theorem complement_append_endOfHeader (data : GoString) :
    complement (data ++ endOfHeader) = data ++ endOfHeader := by
  have : bytes.HasSuffix (data ++ endOfHeader) endOfHeader = true := by
    simp [bytes.HasSuffix]
  simp [complement, this]

/-- Unfolding of `parseService` past the prefix check, which always passes. -/
theorem parseService_eq {ε : Type} (rr : GoString → Except ε Header) (addr : Addr)
    (data : GoString) :
    parseService rr addr data =
      match rr (complement (rejoin data)) with
      | .error err => .error (.readResponse err)
      | .ok resp =>
        .ok { From := addr.String
              Typ := textproto.Get resp "NT".toList
              USN := textproto.Get resp "USN".toList
              Location := textproto.Get resp "LOCATION".toList
              Server := textproto.Get resp "SERVER".toList
              rawHeader := resp
              maxAge := none } := by
  unfold parseService
  simp only [HasPrefix_rejoin, Bool.not_true, Bool.false_eq_true, if_false]

/-! ## Sample datagrams and their parse -/

theorem parse_notify :
    parseService http.ReadResponse sampleAddr notifyDatagram = .ok notifyRecord := by rfl

theorem parse_malformed :
    parseService http.ReadResponse sampleAddr malformedDatagram =
      .error (.readResponse .malformedHeaderLine) := by rfl

/-! ## Properties of `parseService` and of the listener -/

/-- Every record returned by `parseService` is built from the header set that the
response reader returns on the framed datagram. -/
theorem parseService_ok_fields {ε : Type} (rr : GoString → Except ε Header) (addr : Addr)
    (data : GoString) (srv : Service) (h : parseService rr addr data = .ok srv) :
    ∃ hdr : Header, rr (complement (rejoin data)) = .ok hdr ∧
      srv.USN = textproto.Get hdr "USN".toList ∧
      srv.Typ = textproto.Get hdr "NT".toList ∧
      srv.Location = textproto.Get hdr "LOCATION".toList ∧
      srv.Server = textproto.Get hdr "SERVER".toList ∧
      srv.From = addr.String ∧
      srv.Header = hdr ∧
      (∀ key, hdr.lookup (textproto.CanonicalMIMEHeaderKey key) = none →
        textproto.Get hdr key = []) ∧
      (∀ key v vs, hdr.lookup (textproto.CanonicalMIMEHeaderKey key) = some (v :: vs) →
        textproto.Get hdr key = v) := by
  rw [parseService_eq] at h
  cases hr : rr (complement (rejoin data)) with
  | error err => simp [hr] at h
  | ok hdr =>
    simp only [hr, Except.ok.injEq] at h
    subst h
    refine ⟨hdr, rfl, rfl, rfl, rfl, rfl, rfl, rfl, ?_, ?_⟩
    · intro key hk
      simp [textproto.Get, hk]
    · intro key v vs hk
      simp [textproto.Get, hk]

/-- C6: a payload that does not end with CR LF CR LF is parsed exactly as the same
payload followed by CR LF CR LF: the same record, or the same failure. -/
theorem parseService_terminator_shim {ε : Type} (rr : GoString → Except ε Header)
    (addr : Addr) (p : GoString) (h : bytes.HasSuffix p endOfHeader = false) :
    parseService rr addr p = parseService rr addr (p ++ endOfHeader) := by
  rw [parseService_eq, parseService_eq, rejoin_append_endOfHeader,
    complement_append_endOfHeader, complement_of_not_suffix _ (HasSuffix_rejoin p h)]

theorem parseService_terminator_shim_witness :
    bytes.HasSuffix notifyUnterminated endOfHeader = false ∧
    notifyUnterminated ++ endOfHeader = notifyDatagram ∧
    parseService http.ReadResponse sampleAddr notifyUnterminated = .ok notifyRecord ∧
    parseService http.ReadResponse sampleAddr notifyUnterminated =
      parseService http.ReadResponse sampleAddr (notifyUnterminated ++ endOfHeader) :=
  ⟨by decide, by rfl, by rfl,
    parseService_terminator_shim http.ReadResponse sampleAddr notifyUnterminated (by decide)⟩

theorem complement_rejoin_shape (data : GoString) :
    ∃ block, complement (rejoin data) = statusLine ++ crlf ++ block := by
  rcases fromFirstCRLF_shape data with h0 | ⟨r, hr⟩
  · refine ⟨crlf, ?_⟩
    have hr : rejoin data = statusLine := by simp [rejoin_eq, h0]
    have hs : bytes.HasSuffix statusLine endOfHeader = false := by decide
    rw [hr, complement_of_not_suffix _ hs]
    simp [endOfHeader, crlf]
  · have hre : rejoin data = statusLine ++ crlf ++ r := by simp [rejoin_eq, hr, crlf]
    by_cases hs : bytes.HasSuffix (rejoin data) endOfHeader = true
    · refine ⟨r, ?_⟩
      unfold complement
      rw [hs, ← hre]
      simp
    · have hs : bytes.HasSuffix (rejoin data) endOfHeader = false := by simpa using hs
      exact ⟨r ++ endOfHeader, by rw [complement_of_not_suffix _ hs, hre]; simp⟩

theorem readLines_statusLine (block : GoString) :
    textproto.readLines (statusLine ++ crlf ++ block) [] =
      statusLine :: textproto.readLines block [] := by
  simp [statusLine_eq, crlf, textproto.readLines]

theorem ReadResponse_statusLine (block : GoString) :
    http.ReadResponse (statusLine ++ crlf ++ block) =
      match textproto.ReadMIMEHeader (textproto.readLines block []) with
      | .error e => .error e
      | .ok h => .ok (http.fixPragmaCacheControl h) := by
  have hc : http.checkStatusLine statusLine = .ok () := by rfl
  simp only [http.ReadResponse, readLines_statusLine, hc]

/-- C10: the prefix check of `parseService` never rejects. Splitting at CR LF gives at
least one line, so the first line is always overwritten and the rejoined bytes begin
with `HTTP`; `parseService` never returns `errWithoutHTTPPrefix`, and when it fails the
error is the one of the response reader, which always finds the line `HTTP/1.1 200 OK`
as the status line, so the error comes from what follows it. -/
theorem parseService_prefix_check_never_rejects {ε : Type} (rr : GoString → Except ε Header)
    (addr : Addr) (data : GoString) :
    1 ≤ (bytes.SplitCRLF data).length ∧
    (∃ l ls, bytes.SplitCRLF data = l :: ls ∧
      rejoin data = bytes.Join crlf (statusLine :: ls)) ∧
    bytes.HasPrefix (rejoin data) "HTTP".toList = true ∧
    parseService rr addr data ≠ .error .errWithoutHTTPPrefix ∧
    (∀ e, parseService rr addr data = .error e →
      ∃ err, e = .readResponse err ∧ rr (complement (rejoin data)) = .error err) ∧
    (∃ block, complement (rejoin data) = statusLine ++ crlf ++ block ∧
      textproto.readLines (complement (rejoin data)) [] =
        statusLine :: textproto.readLines block [] ∧
      http.checkStatusLine statusLine = .ok ()) := by
  obtain ⟨l, ls, h1, h2⟩ := Join_set_SplitCRLF data statusLine
  have hfail : ∀ e, parseService rr addr data = .error e →
      ∃ err, e = .readResponse err ∧ rr (complement (rejoin data)) = .error err := by
    intro e he
    rw [parseService_eq] at he
    cases hr : rr (complement (rejoin data)) with
    | error err =>
      simp only [hr, Except.error.injEq] at he
      exact ⟨err, he.symm, rfl⟩
    | ok hdr => simp [hr] at he
  refine ⟨by simp [h1], ⟨l, ls, h1, by rw [h2, rejoin_eq]⟩, HasPrefix_rejoin data, ?_, hfail, ?_⟩
  · intro he
    obtain ⟨err, h3, _⟩ := hfail _ he
    cases h3
  · obtain ⟨block, hb⟩ := complement_rejoin_shape data
    exact ⟨block, hb, by rw [hb]; exact readLines_statusLine block, by rfl⟩

/-- C2: a reply to a discovery query (it has `ST: upnp:rootdevice` and no `NT`) parses
to a record whose `Type` is empty, although the header set holds the `ST` value; the
listener therefore leaves the registry as it was and the reply is not registered.
Whatever the datagram, `Type` is empty as soon as there is no `NT` value. -/
theorem parseService_ignores_ST :
    (∃ srv, parseService http.ReadResponse sampleAddr searchReply = .ok srv ∧
      textproto.Get srv.Header "ST".toList = "upnp:rootdevice".toList ∧
      textproto.Get srv.Header "NT".toList = [] ∧
      srv.USN = "uuid:abc123::upnp:rootdevice".toList ∧
      srv.Typ = []) ∧
    (∀ m : DeviceMap,
      listenerStep http.ReadResponse m sampleAddr searchReply = .running m) ∧
    ∀ (ε : Type) (rr : GoString → Except ε Header) (addr : Addr) (data : GoString)
      (srv : Service), parseService rr addr data = .ok srv →
      textproto.Get srv.Header "NT".toList = [] → srv.Typ = [] := by
  have hp : parseService http.ReadResponse sampleAddr searchReply =
      .ok { From := "10.0.0.5:1900".toList
            Typ := []
            USN := "uuid:abc123::upnp:rootdevice".toList
            Location := "http://10.0.0.5:80/desc.xml".toList
            Server := []
            rawHeader :=
              [("Cache-Control".toList, ["max-age=1800".toList]),
               ("St".toList, ["upnp:rootdevice".toList]),
               ("Usn".toList, ["uuid:abc123::upnp:rootdevice".toList]),
               ("Location".toList, ["http://10.0.0.5:80/desc.xml".toList])]
            maxAge := none } := by rfl
  refine ⟨⟨_, hp, by decide, by decide, by decide, by decide⟩, ?_, ?_⟩
  · intro m
    simp [listenerStep, hp]
  · intro ε rr addr data srv h hnt
    obtain ⟨hdr, _, _, ht, _, _, _, hh, _⟩ := parseService_ok_fields rr addr data srv h
    rw [ht, ← hh]
    exact hnt

/-- C3: a listener step on a datagram that `parseService` rejects (here one with a
malformed header block) ends in a panic, not in a normal completion: after logging the
error the loop reads `srv.Type` through the nil `srv`. A valid datagram that follows is
never processed. The same holds for every datagram that `parseService` rejects. -/
theorem listenerStep_panics_on_rejected :
    parseService http.ReadResponse sampleAddr malformedDatagram =
      .error (.readResponse .malformedHeaderLine) ∧
    (∀ m : DeviceMap,
      listenerStep http.ReadResponse m sampleAddr malformedDatagram = .panicked) ∧
    (∀ m : DeviceMap,
      listenerRun http.ReadResponse m
        [(sampleAddr, malformedDatagram), (sampleAddr, notifyDatagram)] = .panicked) ∧
    ∀ (ε : Type) (rr : GoString → Except ε Header) (m : DeviceMap) (addr : Addr)
      (data : GoString) (e : ParseError ε), parseService rr addr data = .error e →
      listenerStep rr m addr data = .panicked := by
  refine ⟨parse_malformed, ?_, ?_, ?_⟩
  · intro m
    simp [listenerStep, parse_malformed]
  · intro m
    simp [listenerRun, listenerStep, parse_malformed]
  · intro ε rr m addr data e h
    simp [listenerStep, h]

/-! ## Reading back a well-formed header block -/

theorem fromFirstCRLF_append_crlf (first x : List Char) (h : fromFirstCRLF first = []) :
    fromFirstCRLF (first ++ crlf ++ x) = crlf ++ x := by
  induction first using fromFirstCRLF.induct with
  | case1 => simp [fromFirstCRLF, crlf]
  | case2 c =>
    by_cases hc : c = '\r' <;> simp [fromFirstCRLF, crlf, hc]
  | case3 c d rest hcd => simp [fromFirstCRLF, hcd] at h
  | case4 c d rest hcd ih =>
    have h1 : fromFirstCRLF (d :: rest) = [] := by simpa [fromFirstCRLF, hcd] using h
    have := ih h1
    have e : c :: d :: rest ++ crlf ++ x = c :: d :: (rest ++ crlf ++ x) := by simp
    rw [e]
    simp only [fromFirstCRLF, hcd, if_false]
    simpa using this

theorem renderHeaders_suffix (hs : List (GoString × GoString)) :
    endOfHeader <:+ statusLine ++ crlf ++ (renderHeaders hs ++ crlf) := by
  cases hs with
  | nil => exact ⟨statusLine, by simp [renderHeaders, endOfHeader, crlf]⟩
  | cons kv hs =>
    have : ∀ l : List (GoString × GoString), ∀ kv0, ∃ y, renderHeaders (kv0 :: l) = y ++ crlf := by
      intro l
      induction l with
      | nil => intro kv0; exact ⟨fieldLine kv0, by simp [renderHeaders]⟩
      | cons a l ih =>
        intro kv0
        obtain ⟨y, hy⟩ := ih a
        exact ⟨fieldLine kv0 ++ crlf ++ y, by rw [renderHeaders, hy]; simp⟩
    obtain ⟨y, hy⟩ := this hs kv
    exact ⟨statusLine ++ crlf ++ y, by rw [hy]; simp [endOfHeader, crlf]⟩

/-- The bytes handed to the response reader for a datagram made of a first line and a
rendered header block. -/
theorem complement_rejoin_rendered (first : GoString) (hs : List (GoString × GoString))
    (h : fromFirstCRLF first = []) :
    complement (rejoin (first ++ crlf ++ renderHeaders hs ++ crlf)) =
      statusLine ++ crlf ++ (renderHeaders hs ++ crlf) := by
  have e : first ++ crlf ++ renderHeaders hs ++ crlf = first ++ crlf ++ (renderHeaders hs ++ crlf) := by
    simp
  have hr : rejoin (first ++ crlf ++ renderHeaders hs ++ crlf) =
      statusLine ++ crlf ++ (renderHeaders hs ++ crlf) := by
    rw [e, rejoin_eq, fromFirstCRLF_append_crlf _ _ h]
    simp
  have hsuf : bytes.HasSuffix (statusLine ++ crlf ++ (renderHeaders hs ++ crlf)) endOfHeader = true := by
    simpa [bytes.HasSuffix] using renderHeaders_suffix hs
  rw [hr]
  unfold complement
  rw [hsuf]
  simp

theorem readLines_line (l rest acc : List Char) (h : '\n' ∉ l) :
    textproto.readLines (l ++ crlf ++ rest) acc =
      (acc.reverse ++ l) :: textproto.readLines rest [] := by
  induction l generalizing acc with
  | nil => simp [textproto.readLines, crlf]
  | cons c l ih =>
    have hc : c ≠ '\n' := fun e => h (by simp [e])
    have hl : '\n' ∉ l := fun e => h (List.mem_cons_of_mem _ e)
    have := ih (c :: acc) hl
    simp only [List.cons_append, textproto.readLines, hc, if_false]
    simpa using this

theorem wellFormedField_iff (kv : GoString × GoString) (h : wellFormedField kv = true) :
    kv.1 ≠ [] ∧ (∀ c ∈ kv.1, textproto.validHeaderFieldByte c = true) ∧ kv.2 ≠ [] ∧
    (∀ c ∈ kv.2, textproto.validHeaderValueByte c = true) ∧
    kv.2.head?.any isBlank = false ∧ kv.2.getLast?.any isBlank = false := by
  simp only [wellFormedField, Bool.and_eq_true, Bool.not_eq_true', List.all_eq_true,
    List.isEmpty_eq_false] at h
  obtain ⟨⟨⟨⟨⟨⟨h1, h2⟩, h3⟩, h4⟩, h5⟩, h6⟩, _⟩ := h
  exact ⟨by simpa using h1, h2, by simpa using h3, h4, h5, h6⟩

theorem fieldByte_ne_newline {c : Char} (h : textproto.validHeaderFieldByte c = true) :
    c ≠ '\n' ∧ c ≠ ':' ∧ c ≠ ' ' ∧ isBlank c = false := by
  refine ⟨?_, ?_, ?_, ?_⟩
  · rintro rfl; revert h; decide
  · rintro rfl; revert h; decide
  · rintro rfl; revert h; decide
  · by_contra hb
    simp only [isBlank, Bool.not_eq_false, Bool.or_eq_true, beq_iff_eq] at hb
    rcases hb with rfl | rfl <;> revert h <;> decide

theorem valueByte_ne_newline {c : Char} (h : textproto.validHeaderValueByte c = true) :
    c ≠ '\n' := by
  rintro rfl; revert h; decide

theorem fieldLine_no_newline (kv : GoString × GoString) (h : wellFormedField kv = true) :
    '\n' ∉ fieldLine kv := by
  obtain ⟨_, hk, _, hv, _, _⟩ := wellFormedField_iff kv h
  intro hm
  simp only [fieldLine, List.mem_append, List.mem_cons] at hm
  rcases hm with hm | hm | hm | hm
  · exact (fieldByte_ne_newline (hk _ hm)).1 rfl
  · exact absurd hm (by decide)
  · exact absurd hm (by decide)
  · exact valueByte_ne_newline (hv _ hm) rfl

theorem readLines_rendered (hs : List (GoString × GoString))
    (h : ∀ kv ∈ hs, wellFormedField kv = true) :
    textproto.readLines (renderHeaders hs ++ crlf) [] = hs.map fieldLine ++ [[]] := by
  induction hs with
  | nil => rfl
  | cons kv hs ih =>
    have h1 := fieldLine_no_newline kv (h kv (List.mem_cons_self _ _))
    have h2 := ih (fun x hx => h x (List.mem_cons_of_mem _ hx))
    have e : renderHeaders (kv :: hs) ++ crlf = fieldLine kv ++ crlf ++ (renderHeaders hs ++ crlf) := by
      simp [renderHeaders]
    rw [e, readLines_line _ _ _ h1, h2]
    simp

theorem fieldLine_head (kv : GoString × GoString) (h : wellFormedField kv = true) :
    ∃ c t, fieldLine kv = c :: t ∧ isBlank c = false := by
  obtain ⟨hne, hk, _, _, _, _⟩ := wellFormedField_iff kv h
  obtain ⟨c, t, hkt⟩ := List.exists_cons_of_ne_nil hne
  refine ⟨c, t ++ ':' :: ' ' :: kv.2, by simp [fieldLine, hkt], ?_⟩
  exact (fieldByte_ne_newline (hk c (by simp [hkt]))).2.2.2

theorem TrimLeft_of_head (s : GoString) (h : s.head?.any isBlank = false) :
    bytes.TrimLeftSpaceTab s = s := by
  cases s with
  | nil => rfl
  | cons c t =>
    have hc : isBlank c = false := by simpa using h
    have : ¬ (c == ' ' || c == '\t') = true := by
      simpa [isBlank] using hc
    simp [bytes.TrimLeftSpaceTab, List.dropWhile_cons, this]

theorem trim_fieldLine (kv : GoString × GoString) (h : wellFormedField kv = true) :
    bytes.trim (fieldLine kv) = fieldLine kv := by
  obtain ⟨c, t, hct, hc⟩ := fieldLine_head kv h
  obtain ⟨_, _, hv, _, _, hlast⟩ := wellFormedField_iff kv h
  have h1 : bytes.TrimLeftSpaceTab (fieldLine kv) = fieldLine kv := by
    apply TrimLeft_of_head
    simp [hct, hc]
  have h2 : bytes.TrimLeftSpaceTab (fieldLine kv).reverse = (fieldLine kv).reverse := by
    apply TrimLeft_of_head
    have hl : (fieldLine kv).getLast? = kv.2.getLast? := by
      obtain ⟨d, u, hdu⟩ := List.exists_cons_of_ne_nil hv
      have hz : ∃ z, (d :: u).getLast? = some z := by
        cases hl : (d :: u).getLast? with
        | none => simp at hl
        | some z => exact ⟨z, rfl⟩
      obtain ⟨z, hz⟩ := hz
      simp [fieldLine, hdu, List.getLast?_append, List.getLast?_cons_cons, hz]
    rw [List.head?_reverse, hl]
    exact hlast
  simp [bytes.trim, h1, h2]

theorem Cut_fieldLine (k v : List Char) (hk : ∀ c ∈ k, c ≠ ':') :
    bytes.Cut ':' (k ++ ':' :: v) = some (k, v) := by
  induction k with
  | nil => simp [bytes.Cut]
  | cons c k ih =>
    have hc : c ≠ ':' := hk c (List.mem_cons_self _ _)
    have := ih (fun x hx => hk x (List.mem_cons_of_mem _ hx))
    simp [bytes.Cut, hc, this]

theorem canonicalKeyOfLine_token (k : GoString)
    (hk : ∀ c ∈ k, textproto.validHeaderFieldByte c = true) :
    textproto.canonicalKeyOfLine k = some (textproto.CanonicalMIMEHeaderKey k) := by
  have h1 : (k.any fun c => !textproto.validHeaderFieldByte c && c != ' ') = false := by
    rw [List.any_eq_false]
    intro c hc
    simp [hk c hc]
  have h2 : (k.any fun c => c == ' ') = false := by
    rw [List.any_eq_false]
    intro c hc
    simpa using (fieldByte_ne_newline (hk c hc)).2.2.1
  have h3 : k.all textproto.validHeaderFieldByte = true := by
    rw [List.all_eq_true]
    exact hk
  simp [textproto.canonicalKeyOfLine, textproto.CanonicalMIMEHeaderKey, h1, h2, h3]

theorem canonCase_ne_nil (b : Bool) (k : List Char) (h : k ≠ []) :
    textproto.canonCase b k ≠ [] := by
  cases k with
  | nil => exact absurd rfl h
  | cons c t => simp [textproto.canonCase]

theorem addLine_fieldLine (kv : GoString × GoString) (m : Header)
    (h : wellFormedField kv = true) :
    textproto.addLine (fieldLine kv) m =
      .ok (textproto.add (textproto.CanonicalMIMEHeaderKey kv.1) kv.2 m) := by
  obtain ⟨hne, hk, hv, hvb, hhead, _⟩ := wellFormedField_iff kv h
  have hcut : bytes.Cut ':' (fieldLine kv) = some (kv.1, ' ' :: kv.2) :=
    Cut_fieldLine kv.1 (' ' :: kv.2) (fun c hc => (fieldByte_ne_newline (hk c hc)).2.1)
  have hval : ((' ' :: kv.2).any fun c => !textproto.validHeaderValueByte c) = false := by
    rw [List.any_eq_false]
    intro c hc
    rcases List.mem_cons.mp hc with rfl | hc
    · decide
    · simp [hvb c hc]
  have hkey : textproto.CanonicalMIMEHeaderKey kv.1 ≠ [] := by
    have h3 : kv.1.all textproto.validHeaderFieldByte = true := by
      rw [List.all_eq_true]
      exact hk
    simp only [textproto.CanonicalMIMEHeaderKey, h3, if_true]
    exact canonCase_ne_nil _ _ hne
  have htrim : bytes.TrimLeftSpaceTab (' ' :: kv.2) = kv.2 := by
    have : bytes.TrimLeftSpaceTab (' ' :: kv.2) = bytes.TrimLeftSpaceTab kv.2 := by
      simp [bytes.TrimLeftSpaceTab]
    rw [this]
    exact TrimLeft_of_head _ hhead
  simp only [textproto.addLine, hcut, canonicalKeyOfLine_token kv.1 hk, hval, hkey, htrim]
  simp

theorem readHeaderLines_rendered (hs : List (GoString × GoString)) (kv0 : GoString × GoString)
    (m : Header) (h0 : wellFormedField kv0 = true) (h : ∀ kv ∈ hs, wellFormedField kv = true) :
    textproto.readHeaderLines (hs.map fieldLine ++ [[]]) (some (fieldLine kv0)) m =
      .ok (hs.foldl (fun m kv => textproto.add (textproto.CanonicalMIMEHeaderKey kv.1) kv.2 m)
        (textproto.add (textproto.CanonicalMIMEHeaderKey kv0.1) kv0.2 m)) := by
  induction hs generalizing kv0 m with
  | nil => simp [textproto.readHeaderLines, addLine_fieldLine kv0 m h0]
  | cons kv1 hs ih =>
    have h1 := h kv1 (List.mem_cons_self _ _)
    obtain ⟨c, t, hct, hc⟩ := fieldLine_head kv1 h1
    have hsp : ¬ ((fieldLine kv1).head? = some ' ' ∨ (fieldLine kv1).head? = some '\t') := by
      rw [hct]
      simp only [List.head?_cons, Option.some.injEq]
      rintro (rfl | rfl) <;> revert hc <;> decide
    have hcolon : ':' ∈ fieldLine kv1 := by simp [fieldLine]
    have hne : fieldLine kv1 ≠ [] := by simp [hct]
    simp only [List.map_cons, List.cons_append, textproto.readHeaderLines, hsp, if_false,
      addLine_fieldLine kv0 m h0, hne, hcolon, not_true_eq_false, trim_fieldLine kv1 h1]
    exact ih kv1 _ h1 (fun x hx => h x (List.mem_cons_of_mem _ hx))

theorem ReadMIMEHeader_rendered (hs : List (GoString × GoString))
    (h : ∀ kv ∈ hs, wellFormedField kv = true) :
    textproto.ReadMIMEHeader (hs.map fieldLine ++ [[]]) = .ok (headerSetOf hs) := by
  cases hs with
  | nil => simp [textproto.ReadMIMEHeader, textproto.readHeaderLines, headerSetOf]
  | cons kv1 hs =>
    have h1 := h kv1 (List.mem_cons_self _ _)
    obtain ⟨c, t, hct, hc⟩ := fieldLine_head kv1 h1
    have hsp : ¬ ((fieldLine kv1).head? = some ' ' ∨ (fieldLine kv1).head? = some '\t') := by
      rw [hct]
      simp only [List.head?_cons, Option.some.injEq]
      rintro (rfl | rfl) <;> revert hc <;> decide
    have hcolon : ':' ∈ fieldLine kv1 := by simp [fieldLine]
    have hne : fieldLine kv1 ≠ [] := by simp [hct]
    simp only [List.map_cons, List.cons_append, textproto.ReadMIMEHeader, hsp, if_false,
      textproto.readHeaderLines, hne, hcolon, not_true_eq_false, trim_fieldLine kv1 h1]
    exact readHeaderLines_rendered hs kv1 [] h1 (fun x hx => h x (List.mem_cons_of_mem _ hx))

/-- All values filed under the canonical key `ck`, in order. -/
theorem Get_eq_headD (h : Header) (key : GoString) :
    textproto.Get h key =
      ((h.lookup (textproto.CanonicalMIMEHeaderKey key)).getD []).headD [] := by
  unfold textproto.Get
  cases h.lookup (textproto.CanonicalMIMEHeaderKey key) with
  | none => rfl
  | some vs => cases vs <;> rfl

theorem lookup_add (k key v : GoString) (m : Header) :
    ((textproto.add key v m).lookup k).getD [] =
      (m.lookup k).getD [] ++ (if key = k then [v] else []) := by
  induction m with
  | nil =>
    by_cases hk : key = k
    · subst hk
      simp [textproto.add, List.lookup]
    · have : (k == key) = false := by simpa using fun e => hk e.symm
      simp [textproto.add, List.lookup, hk, this]
  | cons e m ih =>
    obtain ⟨a, vs⟩ := e
    by_cases ha : a = key
    · subst ha
      by_cases hk : a = k
      · subst hk
        simp [textproto.add, List.lookup]
      · have : (k == a) = false := by simpa using fun e => hk e.symm
        simp only [textproto.add, if_true, List.lookup, this, hk, if_false, List.append_nil]
    · by_cases hk : k = a
      · subst hk
        have ha1 : ¬ key = k := fun e => ha e.symm
        simp [textproto.add, ha, ha1, List.lookup]
      · have : (k == a) = false := by simpa using hk
        simp only [textproto.add, ha, if_false, List.lookup, this]
        exact ih

theorem lookup_headerSet (k : GoString) (hs : List (GoString × GoString)) (m : Header) :
    ((hs.foldl (fun m kv => textproto.add (textproto.CanonicalMIMEHeaderKey kv.1) kv.2 m)
      m).lookup k).getD [] =
      (m.lookup k).getD [] ++
        (hs.filter fun kv => textproto.CanonicalMIMEHeaderKey kv.1 == k).map fun kv => kv.2 := by
  induction hs generalizing m with
  | nil => simp
  | cons kv hs ih =>
    rw [List.foldl_cons, ih, lookup_add]
    by_cases hk : textproto.CanonicalMIMEHeaderKey kv.1 = k
    · simp [hk, List.filter_cons]
    · have : (textproto.CanonicalMIMEHeaderKey kv.1 == k) = false := by simpa using hk
      simp [hk, List.filter_cons, this]

theorem fieldValue_eq (name : GoString) (hs : List (GoString × GoString)) :
    fieldValue name hs =
      ((hs.filter fun kv => textproto.CanonicalMIMEHeaderKey kv.1 ==
        textproto.CanonicalMIMEHeaderKey name).map fun kv => kv.2).headD [] := by
  induction hs with
  | nil => rfl
  | cons kv hs ih =>
    by_cases hk : (textproto.CanonicalMIMEHeaderKey kv.1 ==
        textproto.CanonicalMIMEHeaderKey name) = true
    · simp [fieldValue, List.find?_cons, List.filter_cons, hk]
    · have hk : (textproto.CanonicalMIMEHeaderKey kv.1 ==
          textproto.CanonicalMIMEHeaderKey name) = false := by simpa using hk
      have : fieldValue name (kv :: hs) = fieldValue name hs := by
        simp [fieldValue, List.find?_cons, hk]
      rw [this, ih]
      simp [List.filter_cons, hk]

/-- The header set of a list of fields answers `Get` with the value of the first field of
that name. -/
theorem Get_headerSetOf (name : GoString) (hs : List (GoString × GoString)) :
    textproto.Get (headerSetOf hs) name = fieldValue name hs := by
  rw [Get_eq_headD, fieldValue_eq, headerSetOf, lookup_headerSet]
  simp

theorem lookup_append_other (k key : GoString) (x : List GoString) (h : Header)
    (hk : k ≠ key) : (h ++ [(key, x)]).lookup k = h.lookup k := by
  induction h with
  | nil =>
    have : (k == key) = false := by simpa using hk
    simp [List.lookup, this]
  | cons e h ih =>
    obtain ⟨a, vs⟩ := e
    by_cases ha : (k == a) = true
    · simp [List.lookup, ha]
    · have ha : (k == a) = false := by simpa using ha
      simp only [List.cons_append, List.lookup, ha]
      exact ih

theorem Get_fixPragmaCacheControl (h : Header) (key : GoString)
    (hk : textproto.CanonicalMIMEHeaderKey key ≠ "Cache-Control".toList) :
    textproto.Get (http.fixPragmaCacheControl h) key = textproto.Get h key := by
  unfold http.fixPragmaCacheControl
  split
  · split
    · simp only [textproto.Get, lookup_append_other _ _ _ _ hk]
    · rfl
  · rfl

theorem fromFirstCRLF_of_no_crlf (first : List Char) (h : ¬ crlf <:+: first) :
    fromFirstCRLF first = [] := by
  induction first using fromFirstCRLF.induct with
  | case1 => rfl
  | case2 c => rfl
  | case3 c d rest hcd =>
    exfalso
    apply h
    obtain ⟨rfl, rfl⟩ := hcd
    exact ⟨[], rest, by simp [crlf]⟩
  | case4 c d rest hcd ih =>
    simp only [fromFirstCRLF, hcd, if_false]
    apply ih
    intro hi
    exact h (hi.trans (List.suffix_cons c (d :: rest)).isInfix)

/-- A datagram made of a first line without CR LF, the rendered fields and the blank
line parses to the record of those fields. -/
theorem parseService_rendered (addr : Addr) (first : GoString)
    (hs : List (GoString × GoString)) (hfirst : ¬ crlf <:+: first)
    (hwf : hs.all wellFormedField = true) :
    parseService http.ReadResponse addr (first ++ crlf ++ renderHeaders hs ++ crlf) =
      .ok { From := addr.String
            Typ := fieldValue "NT".toList hs
            USN := fieldValue "USN".toList hs
            Location := fieldValue "LOCATION".toList hs
            Server := fieldValue "SERVER".toList hs
            rawHeader := http.fixPragmaCacheControl (headerSetOf hs)
            maxAge := none } := by
  have hw : ∀ kv ∈ hs, wellFormedField kv = true := by
    simpa [List.all_eq_true] using hwf
  have hread : http.ReadResponse (complement (rejoin (first ++ crlf ++ renderHeaders hs ++ crlf))) =
      .ok (http.fixPragmaCacheControl (headerSetOf hs)) := by
    rw [complement_rejoin_rendered first hs (fromFirstCRLF_of_no_crlf first hfirst),
      ReadResponse_statusLine, readLines_rendered hs hw, ReadMIMEHeader_rendered hs hw]
  have hget : ∀ key : GoString,
      textproto.CanonicalMIMEHeaderKey key ≠ "Cache-Control".toList →
      textproto.Get (http.fixPragmaCacheControl (headerSetOf hs)) key = fieldValue key hs := by
    intro key hk
    rw [Get_fixPragmaCacheControl _ _ hk, Get_headerSetOf]
  rw [parseService_eq, hread]
  simp only [hget "NT".toList (by decide), hget "USN".toList (by decide),
    hget "LOCATION".toList (by decide), hget "SERVER".toList (by decide)]

/-- C1: a datagram with an arbitrary first line followed by a well-formed header block
and its blank line parses, for every sender address, to the record whose `USN`, `Type`,
`Location` and `Server` are the values of the `USN`, `NT`, `LOCATION` and `SERVER`
headers (the empty string for an absent header), whose `From` is the sender address as
a string, and whose `Header()` is the complete header set. More generally every record
that `parseService` returns, with any behaviour of the response reader, is built that
way from the header set read from the datagram. -/
theorem parseService_fields (addr : Addr) (first : GoString)
    (hs : List (GoString × GoString)) (hfirst : ¬ crlf <:+: first)
    (hwf : hs.all wellFormedField = true) :
    parseService http.ReadResponse addr (first ++ crlf ++ renderHeaders hs ++ crlf) =
      .ok { From := addr.String
            Typ := fieldValue "NT".toList hs
            USN := fieldValue "USN".toList hs
            Location := fieldValue "LOCATION".toList hs
            Server := fieldValue "SERVER".toList hs
            rawHeader := http.fixPragmaCacheControl (headerSetOf hs)
            maxAge := none } ∧
    (∀ key, textproto.CanonicalMIMEHeaderKey key ≠ "Cache-Control".toList →
      textproto.Get (http.fixPragmaCacheControl (headerSetOf hs)) key = fieldValue key hs) ∧
    ∀ (ε : Type) (rr : GoString → Except ε Header) (data : GoString) (srv : Service),
      parseService rr addr data = .ok srv →
      ∃ hdr : Header, rr (complement (rejoin data)) = .ok hdr ∧
        srv.USN = textproto.Get hdr "USN".toList ∧
        srv.Typ = textproto.Get hdr "NT".toList ∧
        srv.Location = textproto.Get hdr "LOCATION".toList ∧
        srv.Server = textproto.Get hdr "SERVER".toList ∧
        srv.From = addr.String ∧
        srv.Header = hdr ∧
        (∀ key, hdr.lookup (textproto.CanonicalMIMEHeaderKey key) = none →
          textproto.Get hdr key = []) ∧
        (∀ key v vs, hdr.lookup (textproto.CanonicalMIMEHeaderKey key) = some (v :: vs) →
          textproto.Get hdr key = v) := by
  refine ⟨parseService_rendered addr first hs hfirst hwf, ?_, ?_⟩
  · intro key hk
    rw [Get_fixPragmaCacheControl _ _ hk, Get_headerSetOf]
  · intro ε rr data srv h
    exact parseService_ok_fields rr addr data srv h

theorem parseService_fields_witness :
    (¬ crlf <:+: "NOTIFY * HTTP/1.1".toList) ∧
    notifyFields.all wellFormedField = true ∧
    "NOTIFY * HTTP/1.1".toList ++ crlf ++ renderHeaders notifyFields ++ crlf = notifyDatagram ∧
    parseService http.ReadResponse sampleAddr notifyDatagram = .ok notifyRecord ∧
    parseService http.ReadResponse sampleAddr
        ("NOTIFY * HTTP/1.1".toList ++ crlf ++ renderHeaders notifyFields ++ crlf) =
      .ok { From := sampleAddr.String
            Typ := fieldValue "NT".toList notifyFields
            USN := fieldValue "USN".toList notifyFields
            Location := fieldValue "LOCATION".toList notifyFields
            Server := fieldValue "SERVER".toList notifyFields
            rawHeader := http.fixPragmaCacheControl (headerSetOf notifyFields)
            maxAge := none } :=
  ⟨by decide, by decide, by rfl, parse_notify,
    (parseService_fields sampleAddr "NOTIFY * HTTP/1.1".toList notifyFields
      (by decide) (by decide)).1⟩

/-! ## Registry, search and memoised max-age -/

theorem lookup_of_mem_entries (m : DeviceMap) (e : Sigma fun _ : GoString => Service)
    (he : e ∈ m.entries) : m.lookup e.1 = some e.2 := by
  have : e.2 ∈ m.lookup e.1 := AList.mem_lookup_iff.mpr he
  simpa using this

/-- The values of a registry, listed key by key. -/
theorem snapshot_eq_keys_lookup (m : DeviceMap) :
    (m.entries.map fun e => e.2).map some = m.keys.map fun k => m.lookup k := by
  simp only [AList.keys, List.keys, List.map_map]
  apply List.map_congr_left
  intro e he
  simp [lookup_of_mem_entries m e he]

/-- C7: when a datagram parses to a record `r` with non-empty `Type`, one listener step
makes the registry map `r.USN` to `r` itself, with exactly one entry under that key and
every other key unchanged; a second step on the same datagram changes nothing. -/
theorem listenerStep_upsert {ε : Type} (rr : GoString → Except ε Header) (m : DeviceMap)
    (addr : Addr) (data : GoString) (r : Service)
    (hp : parseService rr addr data = .ok r) (ht : r.Typ ≠ []) :
    ∃ m1 : DeviceMap, listenerStep rr m addr data = .running m1 ∧
      m1.lookup r.USN = some r ∧
      (m1.entries.filter fun e => decide (e.1 = r.USN)) = [⟨r.USN, r⟩] ∧
      (∀ k, k ≠ r.USN → m1.lookup k = m.lookup k) ∧
      listenerStep rr m1 addr data = .running m1 := by
  refine ⟨m.insert r.USN r, ?_, ?_, ?_, ?_, ?_⟩
  · simp [listenerStep, hp, ht]
  · exact AList.lookup_insert m
  · rw [AList.insert_entries]
    have hk : ∀ e ∈ List.kerase r.USN m.entries, ¬ e.1 = r.USN := by
      intro e he heq
      have h1 : e.1 ∈ (List.kerase r.USN m.entries).keys := List.mem_keys_of_mem he
      rw [heq] at h1
      exact List.not_mem_keys_kerase r.USN m.nodupKeys h1
    simp only [List.filter_cons, decide_True, if_true, List.cons.injEq, true_and]
    apply List.filter_eq_nil_iff.mpr
    intro e he
    have := hk e he
    simp only [decide_eq_true_eq]
    exact this
  · intro k hk
    exact AList.lookup_insert_ne hk
  · simp [listenerStep, hp, ht, AList.insert_insert]

theorem listenerStep_upsert_witness :
    parseService http.ReadResponse sampleAddr notifyDatagram = .ok notifyRecord ∧
    notifyRecord.Typ ≠ [] ∧
    ∃ m1 : DeviceMap,
      listenerStep http.ReadResponse staleMap sampleAddr notifyDatagram = .running m1 ∧
      m1.lookup notifyRecord.USN = some notifyRecord ∧
      (m1.entries.filter fun e => decide (e.1 = notifyRecord.USN)) =
        [⟨notifyRecord.USN, notifyRecord⟩] ∧
      (∀ k, k ≠ notifyRecord.USN → m1.lookup k = staleMap.lookup k) ∧
      listenerStep http.ReadResponse m1 sampleAddr notifyDatagram = .running m1 :=
  ⟨parse_notify, by decide,
    listenerStep_upsert http.ReadResponse staleMap sampleAddr notifyDatagram notifyRecord
      parse_notify (by decide)⟩

/-- C8, as the code has it: with the socket available, `AnotherSearch` returns the
snapshot of the registry (each key's record once, as many records as keys) when the
query is sent, and the empty collection when the send fails; the package state is the
same after the call in both cases. -/
theorem AnotherSearch_snapshot_or_empty (g : Globals) (socket : UDPConn)
    (searchType : GoString) (waitSec : Int) (hs : g.socket = some socket) :
    (socket.WriteTo (buildSearch searchType waitSec) = none →
      (∀ r, r ∈ (AnotherSearch g searchType waitSec).1 ↔
        ∃ k, g.deviceMap.lookup k = some r) ∧
      ((AnotherSearch g searchType waitSec).1.map some =
        g.deviceMap.keys.map fun k => g.deviceMap.lookup k) ∧
      (AnotherSearch g searchType waitSec).1.length = g.deviceMap.keys.length) ∧
    (∀ err, socket.WriteTo (buildSearch searchType waitSec) = some err →
      (AnotherSearch g searchType waitSec).1 = []) ∧
    (AnotherSearch g searchType waitSec).2 = g := by
  refine ⟨?_, ?_, ?_⟩
  · intro hw
    have hres : (AnotherSearch g searchType waitSec).1 = g.deviceMap.entries.map fun e => e.2 := by
      simp [AnotherSearch, hs, sendMulticastMessage, hw]
    rw [hres]
    refine ⟨?_, snapshot_eq_keys_lookup _, by simp [AList.keys, List.keys]⟩
    intro r
    constructor
    · intro hr
      obtain ⟨e, he, rfl⟩ := List.mem_map.mp hr
      exact ⟨e.1, lookup_of_mem_entries _ e he⟩
    · rintro ⟨k, hk⟩
      have : (⟨k, r⟩ : Sigma fun _ : GoString => Service) ∈ g.deviceMap.entries :=
        AList.mem_lookup_iff.mp (by simp [hk])
      exact List.mem_map.mpr ⟨_, this, rfl⟩
  · intro err hw
    simp [AnotherSearch, hs, sendMulticastMessage, hw]
  · cases hw : socket.WriteTo (buildSearch searchType waitSec) <;>
      simp [AnotherSearch, hs, sendMulticastMessage, hw]

theorem AnotherSearch_snapshot_or_empty_witness :
    (⟨some workingSocket, notifyMap⟩ : Globals).socket = some workingSocket ∧
    (AnotherSearch ⟨some workingSocket, notifyMap⟩ ssdpAll 5).1 = [notifyRecord] ∧
    ((workingSocket.WriteTo (buildSearch ssdpAll 5) = none →
      (∀ r, r ∈ (AnotherSearch ⟨some workingSocket, notifyMap⟩ ssdpAll 5).1 ↔
        ∃ k, notifyMap.lookup k = some r) ∧
      ((AnotherSearch ⟨some workingSocket, notifyMap⟩ ssdpAll 5).1.map some =
        notifyMap.keys.map fun k => notifyMap.lookup k) ∧
      (AnotherSearch ⟨some workingSocket, notifyMap⟩ ssdpAll 5).1.length =
        notifyMap.keys.length) ∧
    (∀ err, workingSocket.WriteTo (buildSearch ssdpAll 5) = some err →
      (AnotherSearch ⟨some workingSocket, notifyMap⟩ ssdpAll 5).1 = []) ∧
    (AnotherSearch ⟨some workingSocket, notifyMap⟩ ssdpAll 5).2 =
      ⟨some workingSocket, notifyMap⟩) :=
  ⟨rfl, by rfl,
    AnotherSearch_snapshot_or_empty ⟨some workingSocket, notifyMap⟩ workingSocket
      ssdpAll 5 rfl⟩

/-- C8 as stated fails: the socket is available and the registry holds one record, but
the send fails and `AnotherSearch` returns the empty collection, not the snapshot. -/
theorem AnotherSearch_send_error_returns_empty :
    (⟨some failingSocket, notifyMap⟩ : Globals).socket = some failingSocket ∧
    failingSocket.WriteTo (buildSearch ssdpAll 5) = some .writeFailed ∧
    notifyMap.lookup "uuid:abc123::urn:test:service:1".toList = some notifyRecord ∧
    notifyMap.keys.length = 1 ∧
    (AnotherSearch ⟨some failingSocket, notifyMap⟩ ssdpAll 5).1 = [] ∧
    notifyRecord ∉ (AnotherSearch ⟨some failingSocket, notifyMap⟩ ssdpAll 5).1 ∧
    (AnotherSearch ⟨some failingSocket, notifyMap⟩ ssdpAll 5).1.length ≠
      notifyMap.keys.length := by
  refine ⟨rfl, rfl, by rfl, by rfl, by rfl, ?_, ?_⟩
  · have h : (AnotherSearch ⟨some failingSocket, notifyMap⟩ ssdpAll 5).1 = [] := by rfl
    simp [h]
  · have h : (AnotherSearch ⟨some failingSocket, notifyMap⟩ ssdpAll 5).1 = [] := by rfl
    have hk : notifyMap.keys.length = 1 := by rfl
    simp [h, hk]

theorem laterCalls_of_memo (s : Service) (v : Int) (hs : List Header) (h : s.maxAge = some v) :
    ∀ x ∈ s.laterCalls hs, x = v := by
  induction hs generalizing s with
  | nil => simp [Service.laterCalls]
  | cons h0 hs ih =>
    have h1 : (s.setHeader h0).maxAge = some v := by simp [Service.setHeader, h]
    have h2 : (s.setHeader h0).MaxAge = (v, s.setHeader h0) := by simp [Service.MaxAge, h1]
    intro x hx
    simp only [Service.laterCalls, h2, List.mem_cons] at hx
    rcases hx with rfl | hx
    · rfl
    · exact ih (s.setHeader h0) h1 x hx

/-- C9: on a record whose memo cell is empty, the first `MaxAge()` returns
`extractMaxAge` of the `CACHE-CONTROL` value with default `-1` and stores it; every
later call returns that stored value, whatever header sets the record is given in
between. -/
theorem MaxAge_memoized (s : Service) (h : s.maxAge = none) :
    s.MaxAge.1 = extractMaxAge (textproto.Get s.Header "CACHE-CONTROL".toList) (-1) ∧
    s.MaxAge.2.maxAge = some s.MaxAge.1 ∧
    (∀ h1 : Header, (s.MaxAge.2.setHeader h1).MaxAge.1 = s.MaxAge.1) ∧
    ∀ hs : List Header, ∀ x ∈ s.MaxAge.2.laterCalls hs, x = s.MaxAge.1 := by
  have hm : s.MaxAge.2.maxAge = some s.MaxAge.1 := by simp [Service.MaxAge, h]
  refine ⟨by simp [Service.MaxAge, h, Service.Header], hm, ?_, ?_⟩
  · intro h1
    have := laterCalls_of_memo s.MaxAge.2 s.MaxAge.1 [h1] hm
    simpa [Service.laterCalls] using this
  · intro hs
    exact laterCalls_of_memo _ _ hs hm

theorem MaxAge_memoized_witness :
    notifyRecord.maxAge = none ∧
    notifyRecord.MaxAge.1 = 1800 ∧
    (notifyRecord.MaxAge.2.setHeader
      [("Cache-Control".toList, ["max-age=60".toList])]).MaxAge.1 = 1800 ∧
    (notifyRecord.MaxAge.1 =
      extractMaxAge (textproto.Get notifyRecord.Header "CACHE-CONTROL".toList) (-1) ∧
    notifyRecord.MaxAge.2.maxAge = some notifyRecord.MaxAge.1 ∧
    (∀ h1 : Header, (notifyRecord.MaxAge.2.setHeader h1).MaxAge.1 = notifyRecord.MaxAge.1) ∧
    ∀ hs : List Header, ∀ x ∈ notifyRecord.MaxAge.2.laterCalls hs, x = notifyRecord.MaxAge.1) :=
  ⟨rfl, by decide, by decide, MaxAge_memoized notifyRecord rfl⟩

/-! ## The matcher on `rxMaxAge` -/

namespace regexp

theorem isDigit_isWordChar {c : Char} (h : isDigit c = true) : isWordChar c = true := by
  simp only [isDigit] at h
  simp [isWordChar, h]

theorem isSpace_not_isDigit {c : Char} (h : isSpace c = true) : isDigit c = false := by
  simp only [isSpace, Bool.or_eq_true, beq_iff_eq] at h
  rcases h with (((h | h) | h) | h) | h <;> subst h <;> decide

theorem isSpace_ne_eq {c : Char} (h : isSpace c = true) : c ≠ '=' := by
  rintro rfl
  revert h
  decide

/-- Greedy repetition followed by a continuation that cannot start on a class
character: only the longest repetition survives. -/
theorem starFrom_flatMap {β : Type} (cls : Char → Bool) (cap : List Char) (f : Pos → List β)
    (prev : Option Char) (s : List Char)
    (hf : ∀ pv c cs, (pv = prev ∨ ∃ x, pv = some x ∧ cls x = true) → cls c = true →
      f ⟨pv, c :: cs, cap⟩ = []) :
    ∃ pv, (pv = prev ∨ ∃ x, pv = some x ∧ cls x = true) ∧
      (starFrom cls cap prev s).flatMap f = f ⟨pv, s.dropWhile cls, cap⟩ := by
  induction s generalizing prev with
  | nil => exact ⟨prev, Or.inl rfl, by simp [starFrom]⟩
  | cons c cs ih =>
    by_cases hc : cls c = true
    · have hf1 : ∀ pv d ds, (pv = some c ∨ ∃ x, pv = some x ∧ cls x = true) → cls d = true →
          f ⟨pv, d :: ds, cap⟩ = [] := by
        intro pv d ds hpv hd
        apply hf pv d ds _ hd
        rcases hpv with rfl | h
        · exact Or.inr ⟨c, rfl, hc⟩
        · exact Or.inr h
      obtain ⟨pv, hpv, he⟩ := ih (some c) hf1
      refine ⟨pv, ?_, ?_⟩
      · rcases hpv with rfl | h
        · exact Or.inr ⟨c, rfl, hc⟩
        · exact Or.inr h
      · simp [starFrom, hc, he, hf prev c cs (Or.inl rfl) hc]
    · exact ⟨prev, Or.inl rfl, by simp [starFrom, hc]⟩

theorem run_cat_wordBoundary (r : Regex) (p : Pos) :
    run (.cat .wordBoundary r) p = if atWordBoundary p.prev p.rest then run r p else [] := by
  by_cases h : atWordBoundary p.prev p.rest = true <;> simp [run, h]

theorem run_cat_lit_cons (r : Regex) (c d : Char) (pv : Option Char) (t cap : List Char) :
    run (.cat (.lit c) r) ⟨pv, d :: t, cap⟩ = if d = c then run r ⟨some d, t, cap⟩ else [] := by
  by_cases h : d = c <;> simp [run, h]

theorem run_cat_lit_nil (r : Regex) (c : Char) (pv : Option Char) (cap : List Char) :
    run (.cat (.lit c) r) ⟨pv, [], cap⟩ = [] := by
  simp [run]

theorem run_cat_star (r : Regex) (cls : Char → Bool) (pv : Option Char) (s cap : List Char)
    (hr : ∀ pv1 c cs, cls c = true → run r ⟨pv1, c :: cs, cap⟩ = []) :
    ∃ pv1, run (.cat (.star cls) r) ⟨pv, s, cap⟩ = run r ⟨pv1, s.dropWhile cls, cap⟩ := by
  obtain ⟨pv1, _, h⟩ := starFrom_flatMap cls cap (run r) pv s (fun pv1 c cs _ hc => hr pv1 c cs hc)
  exact ⟨pv1, by simpa [run] using h⟩

theorem take_length_sub_dropWhile (p : Char → Bool) (l : List Char) :
    l.take (l.length - (l.dropWhile p).length) = l.takeWhile p := by
  have h := List.takeWhile_append_dropWhile p l
  have hl : l.length = (l.takeWhile p).length + (l.dropWhile p).length := by
    have := congrArg List.length h
    rw [List.length_append] at this
    exact this.symm
  have hn : l.length - (l.dropWhile p).length = (l.takeWhile p).length := by omega
  rw [hn]
  have ht := List.take_left (l.takeWhile p) (l.dropWhile p)
  rw [h] at ht
  exact ht

/-- The tail `(\d+)\b` of the pattern on an input that starts with a digit. -/
theorem run_digits_cons (pv : Option Char) (d : Char) (t cap : List Char)
    (hd : isDigit d = true) :
    ∃ x, run (.cat (.capture (.plus isDigit)) .wordBoundary) ⟨pv, d :: t, cap⟩ =
      if (t.dropWhile isDigit).head?.any isWordChar = true then []
      else [⟨some x, t.dropWhile isDigit, d :: t.takeWhile isDigit⟩] := by
  let g : Pos → Pos := fun q =>
    { q with cap := (d :: t).take ((d :: t).length - q.rest.length) }
  have hf : ∀ pv1 c cs, (pv1 = some d ∨ ∃ x, pv1 = some x ∧ isDigit x = true) →
      isDigit c = true → (fun q => run .wordBoundary (g q)) ⟨pv1, c :: cs, cap⟩ = [] := by
    intro pv1 c cs hpv hc
    have hw : pv1.any isWordChar = true := by
      rcases hpv with rfl | ⟨x, rfl, hx⟩
      · simp [isDigit_isWordChar hd]
      · simp [isDigit_isWordChar hx]
    simp [run, g, atWordBoundary, hw, isDigit_isWordChar hc]
  obtain ⟨pv1, hpv, he⟩ := starFrom_flatMap isDigit cap (fun q => run .wordBoundary (g q))
    (some d) t hf
  have hx : ∃ x, pv1 = some x ∧ isDigit x = true := by
    rcases hpv with rfl | h
    · exact ⟨d, rfl, hd⟩
    · exact h
  obtain ⟨x, rfl, hx⟩ := hx
  refine ⟨x, ?_⟩
  have hrun : run (.cat (.capture (.plus isDigit)) .wordBoundary) ⟨pv, d :: t, cap⟩ =
      (starFrom isDigit cap (some d) t).flatMap (fun q => run .wordBoundary (g q)) := by
    simp [run, hd, List.flatMap_map, g]
  rw [hrun, he]
  have hcap : (d :: t).take ((d :: t).length - (t.dropWhile isDigit).length) =
      d :: t.takeWhile isDigit := by
    have := take_length_sub_dropWhile isDigit (d :: t)
    simpa [hd] using this
  by_cases hw : (t.dropWhile isDigit).head?.any isWordChar = true
  · simp [run, g, atWordBoundary, hw, isDigit_isWordChar hx]
  · simp only [hw, if_false]
    have hw1 : (t.dropWhile isDigit).head?.any isWordChar = false := by simpa using hw
    simp only [run, g, atWordBoundary, hw1, Option.any_some, isDigit_isWordChar hx]
    rw [hcap]
    simp

theorem run_digits_not_digit (pv : Option Char) (c : Char) (t cap : List Char)
    (hc : isDigit c = false) :
    run (.cat (.capture (.plus isDigit)) .wordBoundary) ⟨pv, c :: t, cap⟩ = [] := by
  simp [run, hc]

theorem run_digits_nil (pv : Option Char) (cap : List Char) :
    run (.cat (.capture (.plus isDigit)) .wordBoundary) ⟨pv, [], cap⟩ = [] := by
  simp [run]

end regexp

/-! ## Specification of the `max-age` token -/

namespace regexp

theorem rxMaxAge_eq : rxMaxAge =
    .cat .wordBoundary (.cat (.lit 'm') (.cat (.lit 'a') (.cat (.lit 'x') (.cat (.lit '-')
      (.cat (.lit 'a') (.cat (.lit 'g') (.cat (.lit 'e') rxTail))))))) := rfl

theorem dropWhile_digits_of_head (post : List Char)
    (hp : post.head?.any isWordChar = false) : post.dropWhile isDigit = post := by
  cases post with
  | nil => rfl
  | cons c cs =>
    have hc : isWordChar c = false := by simpa using hp
    have hd : ¬ isDigit c = true := by
      intro h
      rw [isDigit_isWordChar h] at hc
      exact Bool.noConfusion hc
    simp [hd]

theorem run_rxTail_of_token (pv : Option Char) (cap ws1 ws2 ds post : List Char)
    (h1 : ∀ c ∈ ws1, isSpace c = true) (h2 : ∀ c ∈ ws2, isSpace c = true) (hne : ds ≠ [])
    (hd : ∀ c ∈ ds, isDigit c = true) (hp : post.head?.any isWordChar = false) :
    ∃ x, run rxTail ⟨pv, ws1 ++ '=' :: (ws2 ++ (ds ++ post)), cap⟩ = [⟨some x, post, ds⟩] := by
  obtain ⟨d, ds1, rfl⟩ := List.exists_cons_of_ne_nil hne
  have hd0 : isDigit d = true := hd d (List.mem_cons_self _ _)
  have hd1 : ∀ c ∈ ds1, isDigit c = true := fun c hc => hd c (List.mem_cons_of_mem _ hc)
  obtain ⟨pv1, e1⟩ := run_cat_star (.cat (.lit '=') (.cat (.star isSpace)
    (.cat (.capture (.plus isDigit)) .wordBoundary))) isSpace pv
    (ws1 ++ '=' :: (ws2 ++ (d :: ds1 ++ post))) cap
    (fun pv1 c cs hc => by rw [run_cat_lit_cons, if_neg (isSpace_ne_eq hc)])
  obtain ⟨pv2, e2⟩ := run_cat_star (.cat (.capture (.plus isDigit)) .wordBoundary) isSpace
    (some '=') (ws2 ++ (d :: ds1 ++ post)) cap
    (fun pv1 c cs hc => run_digits_not_digit pv1 c cs cap (isSpace_not_isDigit hc))
  obtain ⟨x, e3⟩ := run_digits_cons pv2 d (ds1 ++ post) cap hd0
  have hs1 : (ws1 ++ '=' :: (ws2 ++ (d :: ds1 ++ post))).dropWhile isSpace =
      '=' :: (ws2 ++ (d :: ds1 ++ post)) := by
    rw [List.dropWhile_append_of_pos h1]
    exact List.dropWhile_cons_of_neg (by decide)
  have hs2 : (ws2 ++ (d :: ds1 ++ post)).dropWhile isSpace = d :: ds1 ++ post := by
    rw [List.dropWhile_append_of_pos h2]
    have : ¬ isSpace d = true := by
      intro h
      rw [isSpace_not_isDigit h] at hd0
      exact Bool.noConfusion hd0
    simp [this]
  have hs3 : (ds1 ++ post).dropWhile isDigit = post := by
    rw [List.dropWhile_append_of_pos hd1]
    exact dropWhile_digits_of_head post hp
  have hs4 : (ds1 ++ post).takeWhile isDigit = ds1 := by
    have h := List.takeWhile_append_dropWhile isDigit (ds1 ++ post)
    rw [hs3] at h
    exact List.append_cancel_right h
  refine ⟨x, ?_⟩
  unfold rxTail
  rw [e1, hs1, run_cat_lit_cons, if_pos rfl, e2, hs2]
  have : d :: ds1 ++ post = d :: (ds1 ++ post) := rfl
  rw [this, e3, hs3, hs4, hp]
  simp

theorem token_of_run_rxTail (pv : Option Char) (t cap : List Char)
    (h : run rxTail ⟨pv, t, cap⟩ ≠ []) :
    ∃ ws1 ws2 ds post : List Char, t = ws1 ++ '=' :: (ws2 ++ (ds ++ post)) ∧
      (∀ c ∈ ws1, isSpace c = true) ∧ (∀ c ∈ ws2, isSpace c = true) ∧ ds ≠ [] ∧
      (∀ c ∈ ds, isDigit c = true) ∧ post.head?.any isWordChar = false := by
  obtain ⟨pv1, e1⟩ := run_cat_star (.cat (.lit '=') (.cat (.star isSpace)
    (.cat (.capture (.plus isDigit)) .wordBoundary))) isSpace pv t cap
    (fun pv1 c cs hc => by rw [run_cat_lit_cons, if_neg (isSpace_ne_eq hc)])
  unfold rxTail at h
  rw [e1] at h
  cases ht : t.dropWhile isSpace with
  | nil =>
    rw [ht, run_cat_lit_nil] at h
    exact absurd rfl h
  | cons c u =>
    rw [ht, run_cat_lit_cons] at h
    by_cases hc : c = '='
    · subst hc
      rw [if_pos rfl] at h
      obtain ⟨pv2, e2⟩ := run_cat_star (.cat (.capture (.plus isDigit)) .wordBoundary) isSpace
        (some '=') u cap
        (fun pv1 c cs hc => run_digits_not_digit pv1 c cs cap (isSpace_not_isDigit hc))
      rw [e2] at h
      cases hu : u.dropWhile isSpace with
      | nil =>
        rw [hu, run_digits_nil] at h
        exact absurd rfl h
      | cons d v =>
        rw [hu] at h
        by_cases hd : isDigit d = true
        · obtain ⟨x, e3⟩ := run_digits_cons pv2 d v cap hd
          rw [e3] at h
          by_cases hw : (v.dropWhile isDigit).head?.any isWordChar = true
          · rw [if_pos hw] at h
            exact absurd rfl h
          · refine ⟨t.takeWhile isSpace, u.takeWhile isSpace, d :: v.takeWhile isDigit,
              v.dropWhile isDigit, ?_, ?_, ?_, by simp, ?_, by simpa using hw⟩
            · have a1 := List.takeWhile_append_dropWhile isSpace t
              have a2 := List.takeWhile_append_dropWhile isSpace u
              have a3 := List.takeWhile_append_dropWhile isDigit v
              rw [ht] at a1
              rw [hu] at a2
              have : d :: List.takeWhile isDigit v ++ List.dropWhile isDigit v = d :: v := by
                rw [List.cons_append, a3]
              rw [this, a2, a1]
            · intro c hc
              exact List.mem_takeWhile_imp hc
            · intro c hc
              exact List.mem_takeWhile_imp hc
            · intro c hc
              rcases List.mem_cons.mp hc with rfl | hc
              · exact hd
              · exact List.mem_takeWhile_imp hc
        · have hd : isDigit d = false := by simpa using hd
          rw [run_digits_not_digit pv2 d v cap hd] at h
          exact absurd rfl h
    · rw [if_neg hc] at h
      exact absurd rfl h

theorem run_cat_lit_ne_nil (r : Regex) (c : Char) (pv : Option Char) (s cap : List Char)
    (h : run (.cat (.lit c) r) ⟨pv, s, cap⟩ ≠ []) :
    ∃ t, s = c :: t ∧ run r ⟨some c, t, cap⟩ ≠ [] := by
  cases s with
  | nil =>
    rw [run_cat_lit_nil] at h
    exact absurd rfl h
  | cons d t =>
    rw [run_cat_lit_cons] at h
    by_cases hd : d = c
    · subst hd
      rw [if_pos rfl] at h
      exact ⟨t, rfl, h⟩
    · rw [if_neg hd] at h
      exact absurd rfl h

theorem atWordBoundary_m (prev : Option Char) (t : List Char) :
    atWordBoundary prev ('m' :: t) = !(prev.any isWordChar) := by
  have : isWordChar 'm' = true := by decide
  simp [atWordBoundary, this]

/-- Soundness of the matcher on `rxMaxAge`: a match at the cursor is a token. -/
theorem token_of_run_rxMaxAge (prev : Option Char) (s cap : List Char)
    (h : run rxMaxAge ⟨prev, s, cap⟩ ≠ []) : ∃ ds, MaxAgeTokenAt prev s ds := by
  rw [rxMaxAge_eq, run_cat_wordBoundary] at h
  by_cases hb : atWordBoundary prev s = true
  · simp only [hb, if_true] at h
    obtain ⟨t1, rfl, g1⟩ := run_cat_lit_ne_nil _ _ _ _ _ h
    obtain ⟨t2, rfl, g2⟩ := run_cat_lit_ne_nil _ _ _ _ _ g1
    obtain ⟨t3, rfl, g3⟩ := run_cat_lit_ne_nil _ _ _ _ _ g2
    obtain ⟨t4, rfl, g4⟩ := run_cat_lit_ne_nil _ _ _ _ _ g3
    obtain ⟨t5, rfl, g5⟩ := run_cat_lit_ne_nil _ _ _ _ _ g4
    obtain ⟨t6, rfl, g6⟩ := run_cat_lit_ne_nil _ _ _ _ _ g5
    obtain ⟨t7, rfl, g7⟩ := run_cat_lit_ne_nil _ _ _ _ _ g6
    obtain ⟨ws1, ws2, ds, post, rfl, h1, h2, hne, hd, hp⟩ := token_of_run_rxTail _ _ _ g7
    rw [atWordBoundary_m] at hb
    exact ⟨ds, ws1, ws2, post, rfl, h1, h2, hne, hd, by simpa using hb, hp⟩
  · simp only [hb] at h
    exact absurd rfl h

/-- Completeness of the matcher on `rxMaxAge`: at a token the only match captures the
digits of the token. -/
theorem run_rxMaxAge_of_token (prev : Option Char) (s ds cap : List Char)
    (h : MaxAgeTokenAt prev s ds) : ∃ q, run rxMaxAge ⟨prev, s, cap⟩ = [q] ∧ q.cap = ds := by
  obtain ⟨ws1, ws2, post, rfl, h1, h2, hne, hd, hprev, hp⟩ := h
  obtain ⟨x, hx⟩ := run_rxTail_of_token (some 'e') cap ws1 ws2 ds post h1 h2 hne hd hp
  refine ⟨⟨some x, post, ds⟩, ?_, rfl⟩
  have hk : "max-age".toList = ['m', 'a', 'x', '-', 'a', 'g', 'e'] := by decide
  rw [rxMaxAge_eq, run_cat_wordBoundary, hk]
  simp only [List.cons_append, List.nil_append, atWordBoundary_m, hprev, Bool.not_false, if_true]
  simp only [run_cat_lit_cons, if_true]
  exact hx

theorem lastOr_some (c : Char) (cs : List Char) : lastOr (some c) cs = (c :: cs).getLast? := by
  induction cs generalizing c with
  | nil => simp [lastOr]
  | cons d ds ih => rw [lastOr, ih, List.getLast?_cons_cons]

theorem lastOr_none (pre : List Char) : lastOr none pre = pre.getLast? := by
  cases pre with
  | nil => rfl
  | cons c cs => rw [lastOr, lastOr_some]

/-- The search finds nothing exactly when the expression matches at no offset. -/
theorem findFrom_eq_none_iff (re : Regex) (prev : Option Char) (s : List Char) :
    findFrom re prev s = none ↔
      ∀ pre rest, s = pre ++ rest → run re ⟨lastOr prev pre, rest, []⟩ = [] := by
  induction s generalizing prev with
  | nil =>
    constructor
    · intro h pre rest hs
      have hp : pre = [] := by
        cases pre with
        | nil => rfl
        | cons c cs => simp at hs
      subst hp
      have hr : rest = [] := by simpa using hs.symm
      subst hr
      cases hrun : run re ⟨prev, [], []⟩ with
      | nil => simpa [lastOr] using hrun
      | cons q qs => simp [findFrom, hrun] at h
    · intro h
      have := h [] [] rfl
      simp only [lastOr] at this
      simp [findFrom, this]
  | cons c cs ih =>
    constructor
    · intro h pre rest hs
      cases hrun : run re ⟨prev, c :: cs, []⟩ with
      | cons q qs => simp [findFrom, hrun] at h
      | nil =>
        have h1 : findFrom re (some c) cs = none := by simpa [findFrom, hrun] using h
        cases pre with
        | nil =>
          have : rest = c :: cs := by simpa using hs.symm
          subst this
          simpa [lastOr] using hrun
        | cons x pre1 =>
          have hx : c = x ∧ cs = pre1 ++ rest := by simpa using hs
          obtain ⟨rfl, hcs⟩ := hx
          exact (ih (some c)).mp h1 pre1 rest hcs
    · intro h
      have h0 := h [] (c :: cs) rfl
      simp only [lastOr] at h0
      have h1 : findFrom re (some c) cs = none := by
        apply (ih (some c)).mpr
        intro pre rest hs
        have := h (c :: pre) rest (by simp [hs])
        simpa [lastOr] using this
      simp [findFrom, h0, h1]

/-- The search returns the capture of the preferred match at the leftmost offset that
has a match. -/
theorem findFrom_of_first (re : Regex) (prev : Option Char) (s pre rest : List Char)
    (q : Pos) (qs : List Pos) (hs : s = pre ++ rest)
    (hq : run re ⟨lastOr prev pre, rest, []⟩ = q :: qs)
    (hfirst : ∀ pre1 rest1, s = pre1 ++ rest1 → pre1.length < pre.length →
      run re ⟨lastOr prev pre1, rest1, []⟩ = []) :
    ∃ whole, findFrom re prev s = some [whole, q.cap] := by
  induction pre generalizing prev s with
  | nil =>
    have hs : s = rest := by simpa using hs
    subst hs
    simp only [lastOr] at hq
    cases s with
    | nil => exact ⟨[], by simp [findFrom, hq]⟩
    | cons c cs =>
      exact ⟨(c :: cs).take ((c :: cs).length - q.rest.length),
        by simp only [findFrom, hq, List.head?_cons]⟩
  | cons c pre1 ih =>
    subst hs
    have h0 := hfirst [] (c :: (pre1 ++ rest)) rfl (by simp)
    simp only [lastOr] at h0
    have hstep : findFrom re prev (c :: pre1 ++ rest) = findFrom re (some c) (pre1 ++ rest) := by
      simp [findFrom, h0]
    rw [hstep]
    apply ih (some c) (pre1 ++ rest) rfl
    · simpa [lastOr] using hq
    · intro pre2 rest2 hs2 hlen
      have := hfirst (c :: pre2) rest2 (by simp [hs2]) (by simpa using hlen)
      simpa [lastOr] using this

/-- A result of the search comes from the preferred match at the leftmost offset that
has a match. -/
theorem first_of_findFrom (re : Regex) (prev : Option Char) (s : List Char)
    (m : List GoString) (h : findFrom re prev s = some m) :
    ∃ pre rest q qs, s = pre ++ rest ∧ run re ⟨lastOr prev pre, rest, []⟩ = q :: qs ∧
      m.getD 1 [] = q.cap ∧
      ∀ pre1 rest1, s = pre1 ++ rest1 → pre1.length < pre.length →
        run re ⟨lastOr prev pre1, rest1, []⟩ = [] := by
  induction s generalizing prev with
  | nil =>
    cases hrun : run re ⟨prev, [], []⟩ with
    | nil => simp [findFrom, hrun] at h
    | cons q qs =>
      have hm : m = [[], q.cap] := by simpa [findFrom, hrun] using h.symm
      exact ⟨[], [], q, qs, rfl, by simpa [lastOr] using hrun, by simp [hm],
        fun pre1 rest1 _ hl => by simp at hl⟩
  | cons c cs ih =>
    cases hrun : run re ⟨prev, c :: cs, []⟩ with
    | cons q qs =>
      have hm : m = [(c :: cs).take ((c :: cs).length - q.rest.length), q.cap] := by
        simpa [findFrom, hrun] using h.symm
      exact ⟨[], c :: cs, q, qs, rfl, by simpa [lastOr] using hrun, by simp [hm],
        fun pre1 rest1 _ hl => by simp at hl⟩
    | nil =>
      have h1 : findFrom re (some c) cs = some m := by simpa [findFrom, hrun] using h
      obtain ⟨pre, rest, q, qs, hs, hq, hm, hfirst⟩ := ih (some c) h1
      refine ⟨c :: pre, rest, q, qs, by simp [hs], by simpa [lastOr] using hq, hm, ?_⟩
      intro pre1 rest1 hs1 hl
      cases pre1 with
      | nil =>
        have : rest1 = c :: cs := by simpa using hs1.symm
        subst this
        simpa [lastOr] using hrun
      | cons x pre2 =>
        have hx : c = x ∧ cs = pre2 ++ rest1 := by simpa using hs1
        obtain ⟨rfl, hcs⟩ := hx
        have := hfirst pre2 rest1 hcs (by simpa using hl)
        simpa [lastOr] using this

end regexp

/-! ## `FindStringSubmatch` on `rxMaxAge` against the token specification -/

theorem find_none_of_no_token (s : GoString) (h : ∀ pre ds, ¬ HasMaxAgeToken s pre ds) :
    regexp.FindStringSubmatch rxMaxAge s = none := by
  apply (regexp.findFrom_eq_none_iff rxMaxAge none s).mpr
  intro pre rest hs
  by_contra hne
  obtain ⟨ds, hd⟩ := regexp.token_of_run_rxMaxAge _ _ _ hne
  rw [regexp.lastOr_none] at hd
  exact h pre ds ⟨rest, hs, hd⟩

theorem find_of_first_token (s ds : GoString) (h : FirstMaxAgeToken s ds) :
    ∃ whole, regexp.FindStringSubmatch rxMaxAge s = some [whole, ds] := by
  obtain ⟨pre, ⟨rest, hs, htok⟩, hfirst⟩ := h
  rw [← regexp.lastOr_none] at htok
  obtain ⟨q, hq, hcap⟩ := regexp.run_rxMaxAge_of_token _ _ _ [] htok
  have := regexp.findFrom_of_first rxMaxAge none s pre rest q [] hs hq (by
    intro pre1 rest1 hs1 hl
    by_contra hne
    obtain ⟨ds1, hd1⟩ := regexp.token_of_run_rxMaxAge _ _ _ hne
    rw [regexp.lastOr_none] at hd1
    have := hfirst pre1 ds1 ⟨rest1, hs1, hd1⟩
    omega)
  rw [hcap] at this
  exact this

theorem first_token_of_find (s : GoString) (m : List GoString)
    (h : regexp.FindStringSubmatch rxMaxAge s = some m) : FirstMaxAgeToken s (m.getD 1 []) := by
  obtain ⟨pre, rest, q, qs, hs, hq, hm, hfirst⟩ := regexp.first_of_findFrom rxMaxAge none s m h
  have hne : regexp.run rxMaxAge ⟨regexp.lastOr none pre, rest, []⟩ ≠ [] := by simp [hq]
  obtain ⟨ds, hd⟩ := regexp.token_of_run_rxMaxAge _ _ _ hne
  obtain ⟨q1, hq1, hcap⟩ := regexp.run_rxMaxAge_of_token _ _ _ [] hd
  have hqq : q = q1 := by
    rw [hq] at hq1
    simpa using congrArg List.head? hq1
  rw [hm, hqq, hcap]
  rw [regexp.lastOr_none] at hd
  refine ⟨pre, ⟨rest, hs, hd⟩, ?_⟩
  intro pre1 ds1 ⟨rest1, hs1, hd1⟩
  by_contra hl
  have hlt : pre1.length < pre.length := by omega
  have h0 := hfirst pre1 rest1 hs1 hlt
  rw [← regexp.lastOr_none] at hd1
  obtain ⟨q2, hq2, _⟩ := regexp.run_rxMaxAge_of_token _ _ _ [] hd1
  rw [h0] at hq2
  exact absurd hq2 (by simp)

/-! ## `strconv.ParseInt` on digit strings -/

theorem parseDigits_eq (ds : List Char) (n : Nat) (hd : ∀ c ∈ ds, regexp.isDigit c = true) :
    strconv.parseDigits ds n = some (ds.foldl (fun n c => 10 * n + (c.toNat - 48)) n) := by
  induction ds generalizing n with
  | nil => rfl
  | cons c cs ih =>
    have hc := hd c (List.mem_cons_self _ _)
    simp only [strconv.parseDigits, hc, if_true, List.foldl_cons]
    exact ih _ (fun x hx => hd x (List.mem_cons_of_mem _ hx))

theorem ParseInt_digits (ds : List Char) (hne : ds ≠ [])
    (hd : ∀ c ∈ ds, regexp.isDigit c = true) :
    strconv.ParseInt ds 32 =
      if decimalValue ds ≤ 2147483647 then .ok (decimalValue ds : Int) else .error .ErrRange := by
  obtain ⟨d, ds1, rfl⟩ := List.exists_cons_of_ne_nil hne
  have hd0 := hd d (List.mem_cons_self _ _)
  have hplus : d ≠ '+' := by
    rintro rfl
    exact absurd hd0 (by decide)
  have hminus : d ≠ '-' := by
    rintro rfl
    exact absurd hd0 (by decide)
  have hp := parseDigits_eq (d :: ds1) 0 hd
  unfold strconv.ParseInt
  split
  · rename_i r heq
    exact absurd (List.cons.inj heq).1 hplus
  · rename_i r heq
    exact absurd (List.cons.inj heq).1 hminus
  · simp only [List.cons_ne_nil, if_false, hp]
    have hv : decimalValue (d :: ds1) =
        List.foldl (fun n c => 10 * n + (c.toNat - 48)) 0 (d :: ds1) := rfl
    rw [hv]
    generalize List.foldl (fun n c => 10 * n + (c.toNat - 48)) 0 (d :: ds1) = v
    by_cases hr : v ≤ 2147483647
    · have h2 : ¬ 2147483648 ≤ v := by omega
      simp [hr, h2]
    · have h2 : 2147483648 ≤ v := by omega
      simp [hr, h2]

theorem token_digits (s pre ds : GoString) (h : HasMaxAgeToken s pre ds) :
    ds ≠ [] ∧ ∀ c ∈ ds, regexp.isDigit c = true := by
  obtain ⟨rest, _, ws1, ws2, post, _, _, _, hne, hd, _, _⟩ := h
  exact ⟨hne, hd⟩

theorem no_token_of_find_none (s : GoString)
    (h : regexp.FindStringSubmatch rxMaxAge s = none) : ∀ pre ds, ¬ HasMaxAgeToken s pre ds := by
  rintro pre ds ⟨rest, hs, htok⟩
  have h0 := (regexp.findFrom_eq_none_iff rxMaxAge none s).mp h pre rest hs
  rw [← regexp.lastOr_none] at htok
  obtain ⟨q, hq, _⟩ := regexp.run_rxMaxAge_of_token _ _ _ [] htok
  rw [h0] at hq
  exact absurd hq (by simp)

/-- C4, as the code has it: when the leftmost `max-age` token of `s` (keyword in lower
case, white space allowed around `=`, delimited by word boundaries) has digits `ds`
whose value fits a signed 32-bit integer, `extractMaxAge s d` is that value, for
every default `d`. -/
theorem extractMaxAge_first_token (s ds : GoString) (d : Int) (h : FirstMaxAgeToken s ds)
    (hr : decimalValue ds ≤ 2147483647) : extractMaxAge s d = (decimalValue ds : Int) := by
  obtain ⟨whole, hf⟩ := find_of_first_token s ds h
  obtain ⟨pre, htok, _⟩ := h
  obtain ⟨hne, hd⟩ := token_digits s pre ds htok
  simp [extractMaxAge, hf, ParseInt_digits ds hne hd, hr]

theorem extractMaxAge_first_token_witness :
    FirstMaxAgeToken twoTokens "1800".toList ∧
    decimalValue "1800".toList ≤ 2147483647 ∧
    decimalValue "1800".toList = 1800 ∧
    extractMaxAge twoTokens (-1) = (decimalValue "1800".toList : Int) :=
  have hf : FirstMaxAgeToken twoTokens "1800".toList :=
    first_token_of_find twoTokens ["max-age \t= 1800".toList, "1800".toList] (by rfl)
  ⟨hf, by decide, by decide,
    extractMaxAge_first_token twoTokens "1800".toList (-1) hf (by decide)⟩

/-- C4 as stated fails: with the keyword in another letter case the number is not
found and the default comes back (lower case is found); a number above 2147483647
gives the default; so does a number that runs into a word character, or a keyword
that follows one. -/
theorem extractMaxAge_case_sensitive :
    extractMaxAge "Max-Age=5".toList (-1) = -1 ∧
    extractMaxAge "MAX-AGE = 5".toList 7 = 7 ∧
    extractMaxAge "max-age=5".toList (-1) = 5 ∧
    extractMaxAge "max-age=2147483648".toList (-1) = -1 ∧
    extractMaxAge "max-age=5x".toList (-1) = -1 ∧
    extractMaxAge "xmax-age=5".toList (-1) = -1 := by decide

/-- C5: `extractMaxAge s d` is the default `d` when `s` has no `max-age` token at all,
and when the digits of its leftmost token denote a number above 2147483647; `MaxAge()`
on a fresh record whose `CACHE-CONTROL` value is such an `s` returns `-1`. -/
theorem extractMaxAge_default (s : GoString) (d : Int)
    (h : (∀ pre ds, ¬ HasMaxAgeToken s pre ds) ∨
      ∃ ds, FirstMaxAgeToken s ds ∧ 2147483647 < decimalValue ds) :
    extractMaxAge s d = d ∧
    ∀ srv : Service, srv.maxAge = none →
      textproto.Get srv.Header "CACHE-CONTROL".toList = s → srv.MaxAge.1 = -1 := by
  have key : ∀ d1 : Int, extractMaxAge s d1 = d1 := by
    intro d1
    rcases h with h | ⟨ds, hf, hr⟩
    · simp [extractMaxAge, find_none_of_no_token s h]
    · obtain ⟨whole, hw⟩ := find_of_first_token s ds hf
      obtain ⟨pre, htok, _⟩ := hf
      obtain ⟨hne, hd⟩ := token_digits s pre ds htok
      have hr1 : ¬ decimalValue ds ≤ 2147483647 := by omega
      simp [extractMaxAge, hw, ParseInt_digits ds hne hd, hr1]
  refine ⟨key d, ?_⟩
  intro srv hm hs
  have hs1 : textproto.Get srv.rawHeader "CACHE-CONTROL".toList = s := hs
  simp only [Service.MaxAge, hm, hs1]
  exact key (-1)

theorem extractMaxAge_default_witness :
    ((∀ pre ds, ¬ HasMaxAgeToken noToken pre ds) ∧
      extractMaxAge noToken 300 = 300 ∧
      ∀ srv : Service, srv.maxAge = none →
        textproto.Get srv.Header "CACHE-CONTROL".toList = noToken → srv.MaxAge.1 = -1) ∧
    ((FirstMaxAgeToken hugeToken "2147483648".toList ∧
        2147483647 < decimalValue "2147483648".toList) ∧
      extractMaxAge hugeToken 300 = 300 ∧
      ∀ srv : Service, srv.maxAge = none →
        textproto.Get srv.Header "CACHE-CONTROL".toList = hugeToken → srv.MaxAge.1 = -1) :=
  have h1 : ∀ pre ds, ¬ HasMaxAgeToken noToken pre ds := no_token_of_find_none noToken (by rfl)
  have h2 : FirstMaxAgeToken hugeToken "2147483648".toList :=
    first_token_of_find hugeToken ["max-age=2147483648".toList, "2147483648".toList] (by rfl)
  ⟨⟨h1, extractMaxAge_default noToken 300 (Or.inl h1)⟩,
    ⟨⟨h2, by decide⟩, extractMaxAge_default hugeToken 300 (Or.inr ⟨_, h2, by decide⟩)⟩⟩

end devices
